import Mathlib

/-!
# HashBlocks: a three-level index of names

A shallow embedding of `src/hashblocks.c` / `src/hashblocks.h`.

* A C string is the list of its bytes, terminator excluded (`CStr`); a `char*`
  that may be `NULL` is an `Option CStr`.
* A `Node*` is the chain it heads: `NULL` is `[]`, and a node with name `n`
  whose `next` heads the chain `c` is `n :: c`.
* The global `first_level` is passed explicitly (`Root`).  A slot of it is
  `NULL`, a pointer to a live `HashBlocks`, or a pointer whose target has been
  handed to `free` (`Ref.freed`): `free_hash_blocks` releases the groups but
  never stores `NULL` back into the array.
* Behaviour that C leaves undefined (an index outside an array, a read through
  a released pointer) is an explicit `Fault`.
* `malloc` and `_strdup` are taken to succeed.
-/

namespace HB

/-! ## Data model (hashblocks.h) -/

abbrev FIRST_LEVEL_SIZE : Nat := 26
abbrev SECOND_LEVEL_SIZE : Nat := 7
abbrev THIRD_LEVEL_SIZE : Nat := 26

/-- The bytes of a NUL-terminated string, without the terminator. -/
abbrev CStr := List Nat

/-- The bytes of a string literal. -/
def cstr (s : String) : CStr := s.toList.map Char.toNat

/-- A value of type `Node*`: the names met from that node on along `next`. -/
abbrev Chain := List CStr

/-- The struct `HashBlock`: 26 chain heads. -/
structure HashBlock where
  third_level : Fin THIRD_LEVEL_SIZE → Chain

/-- The struct `HashBlocks`: 7 optional blocks. -/
structure HashBlocks where
  second_level : Fin SECOND_LEVEL_SIZE → Option HashBlock

/-- A value of type `HashBlocks*` held in `first_level`. -/
inductive Ref where
  | null
  | live (blocks : HashBlocks)
  | freed

/-- The global array `first_level`. -/
abbrev Root := Fin FIRST_LEVEL_SIZE → Ref

/-- The zero-initialised global: every slot `NULL`. -/
def first_level_init : Root := fun _ => Ref.null

/-- Undefined behaviour made explicit. -/
inductive Fault where
  | out_of_bounds
  | use_after_free
  deriving DecidableEq, Repr

/-- Which diagnostic `convert_to_upper` printed before returning 1. -/
inductive Diag where
  | too_short
  | invalid_character
  deriving DecidableEq, Repr

/-- One line written by `print_hash_blocks`. -/
inductive Line where
  | first (i : Nat)
  | second (j : Nat)
  | third (k : Nat)
  | name (n : CStr)
  deriving DecidableEq, Repr

/-! ## The C library functions the program calls (C locale, ASCII) -/

/-- The library call `isalpha((unsigned char)c)` in the C locale. -/
def isalpha (c : Nat) : Bool := (65 ≤ c && c ≤ 90) || (97 ≤ c && c ≤ 122)

/-- The library call `toupper(c)` in the C locale. -/
def toupper (c : Nat) : Nat := if 97 ≤ c ∧ c ≤ 122 then c - 32 else c

/-- The library call `strcmp(a, b)`: negative, zero or positive as `a` is
before, equal to or after `b` byte by byte. -/
def strcmp : CStr → CStr → Int
  | [], [] => 0
  | [], _ :: _ => -1
  | _ :: _, [] => 1
  | a :: as, b :: bs => if a = b then strcmp as bs else if a < b then -1 else 1

/-- The read `name[i]`: a byte of the string, the terminator right after it,
and a fault beyond. -/
def char_at (name : CStr) (i : Nat) : Except Fault Nat :=
  if i < name.length then .ok (name.getD i 0)
  else if i = name.length then .ok 0
  else .error Fault.out_of_bounds

/-! ## hashblocks.c -/

/-- An empty third-level block, as `create_hash_block` returns it. -/
def create_hash_block : HashBlock := ⟨fun _ => []⟩

/-- An empty second-level group, as `create_hash_blocks` returns it. -/
def create_hash_blocks : HashBlocks := ⟨fun _ => none⟩

/-- The function `char_to_index`: `c - 'A'` converted to `unsigned int`. -/
def char_to_index (c : Nat) : Nat := (c + 4294967296 - 65) % 4294967296

/-- The function `vowel_to_index`. -/
def vowel_to_index (c : Nat) : Nat :=
  if c = 65 then 0
  else if c = 69 then 1
  else if c = 73 then 2
  else if c = 79 then 3
  else if c = 85 then 4
  else if c = 89 then 5
  else 6

/-- The function `create_node`: a fresh node with the given name and no successor. -/
def create_node (name : CStr) : Chain := [name]

/-- The `for` loop of `convert_to_upper` over the copy of the input. -/
def convert_loop : CStr → Except Diag CStr
  | [] => .ok []
  | c :: cs =>
    if isalpha c then
      match convert_loop cs with
      | .ok rest => .ok (toupper c :: rest)
      | .error d => .error d
    else .error Diag.invalid_character

/-- The function `convert_to_upper`: `.ok name` stands for return value 0 with
`*output_name = name`, `.error d` for return value 1 after printing `d`. -/
def convert_to_upper (input_name : Option CStr) : Except Diag CStr :=
  match input_name with
  | none => .error Diag.too_short
  | some s => if s.length < 3 then .error Diag.too_short else convert_loop s

/-- The `while` loop of `insert_sorted`; the argument is `current->next` and
the result is what `current->next` heads once the new node is linked. -/
def insert_after : Chain → CStr → Chain
  | [], new_name => [new_name]
  | n :: rest, new_name =>
    if strcmp n new_name < 0 then n :: insert_after rest new_name
    else new_name :: n :: rest

/-- The function `insert_sorted`; the result is the new `*head`. -/
def insert_sorted (head : Chain) (new_name : CStr) : Chain :=
  match head with
  | [] => [new_name]
  | h :: rest =>
    if strcmp h new_name > 0 then new_name :: h :: rest
    else h :: insert_after rest new_name

/-- The function `add_name`: the return value and the new `first_level`. -/
def add_name (first_level : Root) (input_name : Option CStr) : Except Fault (Int × Root) :=
  match convert_to_upper input_name with
  | .error _ => .ok (1, first_level)
  | .ok name =>
    match char_at name 0, char_at name 1, char_at name 2 with
    | .ok c0, .ok c1, .ok c2 =>
      let first_index := char_to_index c0
      let second_index := vowel_to_index c1
      let third_index := char_to_index c2
      if h1 : first_index < FIRST_LEVEL_SIZE then
        match first_level ⟨first_index, h1⟩ with
        | Ref.freed => .error Fault.use_after_free
        | slot =>
          let blocks : HashBlocks :=
            match slot with
            | Ref.live b => b
            | _ => create_hash_blocks
          if h2 : second_index < SECOND_LEVEL_SIZE then
            let block : HashBlock :=
              match blocks.second_level ⟨second_index, h2⟩ with
              | some b => b
              | none => create_hash_block
            if h3 : third_index < THIRD_LEVEL_SIZE then
              let head := block.third_level ⟨third_index, h3⟩
              let head1 := if head = [] then create_node name else insert_sorted head name
              let block1 : HashBlock := ⟨Function.update block.third_level ⟨third_index, h3⟩ head1⟩
              let blocks1 : HashBlocks :=
                ⟨Function.update blocks.second_level ⟨second_index, h2⟩ (some block1)⟩
              .ok (0, Function.update first_level ⟨first_index, h1⟩ (Ref.live blocks1))
            else .error Fault.out_of_bounds
          else .error Fault.out_of_bounds
      else .error Fault.out_of_bounds
    | _, _, _ => .error Fault.out_of_bounds

/-- The `while` loop of `find_name`: the first node whose name compares equal,
or `NULL`. -/
def find_name_loop : Chain → CStr → Chain
  | [], _ => []
  | n :: rest, name => if strcmp n name = 0 then n :: rest else find_name_loop rest name

/-- The function `find_name`: the node found, or `NULL` (`[]`). -/
def find_name (first_level : Root) (name : CStr) : Except Fault Chain :=
  match char_at name 0, char_at name 1, char_at name 2 with
  | .ok c0, .ok c1, .ok c2 =>
    let first_index := char_to_index c0
    let second_index := vowel_to_index c1
    let third_index := char_to_index c2
    if h1 : first_index < FIRST_LEVEL_SIZE then
      match first_level ⟨first_index, h1⟩ with
      | Ref.null => .ok []
      | Ref.freed => .error Fault.use_after_free
      | Ref.live blocks =>
        if h2 : second_index < SECOND_LEVEL_SIZE then
          match blocks.second_level ⟨second_index, h2⟩ with
          | none => .ok []
          | some block =>
            if h3 : third_index < THIRD_LEVEL_SIZE then
              .ok (find_name_loop (block.third_level ⟨third_index, h3⟩) name)
            else .error Fault.out_of_bounds
        else .error Fault.out_of_bounds
    else .error Fault.out_of_bounds
  | _, _, _ => .error Fault.out_of_bounds

/-- The function `find_names`: the return value and `first_level` after the call. -/
def find_names (first_level : Root) (input_name : Option CStr) : Except Fault (Int × Root) :=
  match convert_to_upper input_name with
  | .error _ => .ok (1, first_level)
  | .ok name =>
    match find_name first_level name with
    | .error f => .error f
    | .ok [] => .ok (1, first_level)
    | .ok (_ :: _) => .ok (0, first_level)

/-- The innermost loops of `free_hash_blocks` on one block: the names of the
nodes released, slot by slot and head to tail. -/
def free_block (block : HashBlock) : List CStr :=
  (List.finRange THIRD_LEVEL_SIZE).flatMap fun k => block.third_level k

/-- The `j` loop of `free_hash_blocks` on one group. -/
def free_blocks (blocks : HashBlocks) : List CStr :=
  (List.finRange SECOND_LEVEL_SIZE).flatMap fun j =>
    match blocks.second_level j with
    | some block => free_block block
    | none => []

/-- One round of the outer loop of `free_hash_blocks`. -/
def free_step (acc : List CStr × Root) (i : Fin FIRST_LEVEL_SIZE) :
    Except Fault (List CStr × Root) :=
  match acc.2 i with
  | Ref.null => .ok acc
  | Ref.freed => .error Fault.use_after_free
  | Ref.live blocks => .ok (acc.1 ++ free_blocks blocks, Function.update acc.2 i Ref.freed)

/-- The outer loop of `free_hash_blocks` over the slots listed. -/
def free_loop : List (Fin FIRST_LEVEL_SIZE) → List CStr × Root → Except Fault (List CStr × Root)
  | [], acc => .ok acc
  | i :: is, acc =>
    match free_step acc i with
    | .ok acc1 => free_loop is acc1
    | .error f => .error f

/-- The function `free_hash_blocks`: the names of the nodes released, in the
order of release, and `first_level` after the call. -/
def free_hash_blocks (first_level : Root) : Except Fault (List CStr × Root) :=
  free_loop (List.finRange FIRST_LEVEL_SIZE) ([], first_level)

/-- The `k` loop of `print_hash_blocks` on one block. -/
def print_block (block : HashBlock) : List Line :=
  (List.finRange THIRD_LEVEL_SIZE).flatMap fun k =>
    if block.third_level k = [] then []
    else Line.third k.val :: (block.third_level k).map Line.name

/-- The `j` loop of `print_hash_blocks` on one group. -/
def print_blocks (blocks : HashBlocks) : List Line :=
  (List.finRange SECOND_LEVEL_SIZE).flatMap fun j =>
    match blocks.second_level j with
    | some block => Line.second j.val :: print_block block
    | none => []

/-- The outer loop of `print_hash_blocks` over the slots listed. -/
def print_loop (first_level : Root) : List (Fin FIRST_LEVEL_SIZE) → Except Fault (List Line)
  | [] => .ok []
  | i :: is =>
    match first_level i with
    | Ref.null => print_loop first_level is
    | Ref.freed => .error Fault.use_after_free
    | Ref.live blocks =>
      match print_loop first_level is with
      | .ok out => .ok (Line.first i.val :: print_blocks blocks ++ out)
      | .error f => .error f

/-- The function `print_hash_blocks`: the lines written, in order. -/
def print_hash_blocks (first_level : Root) : Except Fault (List Line) :=
  print_loop first_level (List.finRange FIRST_LEVEL_SIZE)

/-- The loop of `main` over the names after `-n`: each is handed to `add_name`,
whatever the previous call returned. -/
def add_names : Root → List (Option CStr) → Except Fault Root
  | first_level, [] => .ok first_level
  | first_level, n :: ns =>
    match add_name first_level n with
    | .ok (_, first_level1) => add_names first_level1 ns
    | .error f => .error f

/-- The states the index can be in after any number of `add_name` calls on the
initial, all-`NULL` array. -/
inductive Reachable : Root → Prop where
  | init : Reachable first_level_init
  | step {r r1 : Root} {n : Option CStr} {rc : Int} :
      Reachable r → add_name r n = .ok (rc, r1) → Reachable r1

/-- The names among the lines written. -/
def names_of : List Line → List CStr
  | [] => []
  | Line.name n :: ls => n :: names_of ls
  | _ :: ls => names_of ls

/-! ## Vocabulary of the statements -/

/-- A normalised key: at least three bytes, each in `'A'..'Z'`. -/
def IsKey (k : CStr) : Prop := 3 ≤ k.length ∧ ∀ c ∈ k, 65 ≤ c ∧ c ≤ 90

/-- The chain under `[i][j][k]`, empty when a level above it is absent. -/
def chain_at (r : Root) (i : Fin FIRST_LEVEL_SIZE) (j : Fin SECOND_LEVEL_SIZE)
    (k : Fin THIRD_LEVEL_SIZE) : Chain :=
  match r i with
  | Ref.live blocks =>
    match blocks.second_level j with
    | some block => block.third_level k
    | none => []
  | _ => []

/-- No slot of the array points to released memory. -/
def NoFreed (r : Root) : Prop := ∀ i, r i ≠ Ref.freed

/-- The group a first-level slot stands for once `add_name` has filled it in. -/
def blocks_of (s : Ref) : HashBlocks :=
  match s with
  | Ref.live b => b
  | _ => create_hash_blocks

/-- The block a second-level slot stands for once `add_name` has filled it in. -/
def block_of (s : Option HashBlock) : HashBlock :=
  match s with
  | some b => b
  | none => create_hash_block

/-- The array after `add_name` has linked `key` under `[i][j][k]`. -/
def put (r : Root) (i : Fin FIRST_LEVEL_SIZE) (j : Fin SECOND_LEVEL_SIZE)
    (k : Fin THIRD_LEVEL_SIZE) (key : CStr) : Root :=
  Function.update r i (Ref.live
    ⟨Function.update (blocks_of (r i)).second_level j (some
      ⟨Function.update (block_of ((blocks_of (r i)).second_level j)).third_level k
        (insert_sorted ((block_of ((blocks_of (r i)).second_level j)).third_level k) key)⟩)⟩)

/-- The first-level slot `add_name` and `find_name` compute for a key. -/
def slot1 (key : CStr) : Fin FIRST_LEVEL_SIZE :=
  ⟨char_to_index (key.getD 0 0) % 26, Nat.mod_lt _ (by decide)⟩

/-- The second-level slot `add_name` and `find_name` compute for a key. -/
def slot2 (key : CStr) : Fin SECOND_LEVEL_SIZE :=
  ⟨vowel_to_index (key.getD 1 0) % 7, Nat.mod_lt _ (by decide)⟩

/-- The third-level slot `add_name` and `find_name` compute for a key. -/
def slot3 (key : CStr) : Fin THIRD_LEVEL_SIZE :=
  ⟨char_to_index (key.getD 2 0) % 26, Nat.mod_lt _ (by decide)⟩

/-- Every stored name, in the order `print_hash_blocks` and `free_hash_blocks`
walk the structure: slots in index order at each level, each chain head to tail. -/
def enumerate (r : Root) : List CStr :=
  (List.finRange FIRST_LEVEL_SIZE).flatMap fun i =>
    (List.finRange SECOND_LEVEL_SIZE).flatMap fun j =>
      (List.finRange THIRD_LEVEL_SIZE).flatMap fun k => chain_at r i j k

/-- Whether a slot of `first_level` compares equal to `NULL`. -/
def Ref.is_null : Ref → Bool
  | Ref.null => true
  | _ => false

/-- Non-decreasing order of names under `strcmp`. -/
def name_le (a b : CStr) : Prop := strcmp a b ≤ 0

/-- The index after `add_name("Anna")` and `add_name("Ann")` on the empty one:
both records are linked under `[A][Default][N]`. -/
def anna_ann : Root :=
  put (put first_level_init 0 6 13 (cstr "ANNA")) 0 6 13 (cstr "ANN")

/-- The state of a slot after `free_hash_blocks` has passed it. -/
def Ref.released : Ref → Ref
  | Ref.live _ => Ref.freed
  | s => s

/-- The struct `Node` with what tells two nodes of equal name apart: the name
it holds and its address; its `next` is the rest of the list it stands in. -/
structure Node where
  name : CStr
  addr : Nat
  deriving DecidableEq, Repr

/-- The `while` loop of `insert_sorted`, on nodes that carry their address; the
argument is `current->next` and the result is what `current->next` heads once
the new node is linked. -/
def insert_after_node : List Node → Node → List Node
  | [], new_node => [new_node]
  | n :: rest, new_node =>
    if strcmp n.name new_node.name < 0 then n :: insert_after_node rest new_node
    else new_node :: n :: rest

/-- The function `insert_sorted`, on nodes that carry their address; the result
is the new `*head`. -/
def insert_sorted_node (head : List Node) (new_node : Node) : List Node :=
  match head with
  | [] => [new_node]
  | h :: rest =>
    if strcmp h.name new_node.name > 0 then new_node :: h :: rest
    else h :: insert_after_node rest new_node

/-- Whether the name of a node is before `key` under `strcmp`. -/
def before (key : CStr) (n : Node) : Bool := decide (strcmp n.name key < 0)

/-- Whether a name is before `key` under `strcmp`. -/
def name_before (key : CStr) (n : CStr) : Bool := decide (strcmp n key < 0)

/-- A chain of nodes in non-decreasing order of their names. -/
def SortedNodes (c : List Node) : Prop :=
  List.Pairwise (fun a b => strcmp a.name b.name ≤ 0) c

/-- The block under `[i][j]` is present. -/
def has_block (r : Root) (i : Fin FIRST_LEVEL_SIZE) (j : Fin SECOND_LEVEL_SIZE) : Prop :=
  ∃ blocks block, r i = Ref.live blocks ∧ blocks.second_level j = some block

/-- Whether a byte is one of the six letters `vowel_to_index` gives a class of
their own. -/
def is_vowel (c : Nat) : Bool := decide (vowel_to_index c < 6)

/-- The second-level index as the comments above `add_name` and `find_name`
describe it: the class of the first vowel that occurs in the name, and the
default class when the name has none. -/
def documented_second_index (name : CStr) : Nat :=
  match name.find? is_vowel with
  | some c => vowel_to_index c
  | none => 6

/-! ## Lemmas -/

theorem isalpha_iff (c : Nat) : isalpha c = true ↔ (65 ≤ c ∧ c ≤ 90) ∨ (97 ≤ c ∧ c ≤ 122) := by
  simp [isalpha]

theorem toupper_range {c : Nat} (h : isalpha c = true) : 65 ≤ toupper c ∧ toupper c ≤ 90 := by
  rw [isalpha_iff] at h
  unfold toupper
  split <;> omega

theorem toupper_of_upper {c : Nat} (h : 65 ≤ c ∧ c ≤ 90) : toupper c = c := by
  unfold toupper
  split <;> omega

theorem isalpha_of_upper {c : Nat} (h : 65 ≤ c ∧ c ≤ 90) : isalpha c = true := by
  rw [isalpha_iff]; exact Or.inl h

theorem convert_loop_ok {s : CStr} (h : ∀ c ∈ s, isalpha c = true) :
    convert_loop s = .ok (s.map toupper) := by
  induction s with
  | nil => rfl
  | cons c cs ih =>
    have hc : isalpha c = true := h c (List.mem_cons_self _ _)
    have hcs := ih (fun x hx => h x (List.mem_cons_of_mem _ hx))
    simp [convert_loop, hc, hcs]

theorem convert_loop_error {s : CStr} (h : ∃ c ∈ s, isalpha c = false) :
    convert_loop s = .error Diag.invalid_character := by
  induction s with
  | nil => simp at h
  | cons c cs ih =>
    cases hc : isalpha c with
    | false => simp [convert_loop, hc]
    | true =>
      obtain ⟨x, hx, hxa⟩ := h
      rcases List.mem_cons.mp hx with rfl | hx1
      · rw [hc] at hxa; cases hxa
      · simp [convert_loop, hc, ih ⟨x, hx1, hxa⟩]

theorem all_or_not (s : CStr) : (∀ c ∈ s, isalpha c = true) ∨ (∃ c ∈ s, isalpha c = false) := by
  by_cases h : ∀ c ∈ s, isalpha c = true
  · exact Or.inl h
  · right
    push_neg at h
    obtain ⟨c, hc, hn⟩ := h
    exact ⟨c, hc, by simpa using hn⟩

theorem convert_ok_iff (input : Option CStr) (key : CStr) :
    convert_to_upper input = .ok key ↔
      ∃ s, input = some s ∧ 3 ≤ s.length ∧ (∀ c ∈ s, isalpha c = true) ∧ key = s.map toupper := by
  constructor
  · intro h
    cases input with
    | none => simp [convert_to_upper] at h
    | some s =>
      unfold convert_to_upper at h
      simp only at h
      split at h
      · cases h
      · rcases all_or_not s with ha | hb
        · rw [convert_loop_ok ha] at h
          injection h with h
          exact ⟨s, rfl, by omega, ha, h.symm⟩
        · rw [convert_loop_error hb] at h; cases h
  · rintro ⟨s, rfl, hl, ha, rfl⟩
    unfold convert_to_upper
    simp only
    rw [if_neg (by omega), convert_loop_ok ha]

theorem convert_isKey {input : Option CStr} {key : CStr} (h : convert_to_upper input = .ok key) :
    IsKey key := by
  obtain ⟨s, -, hl, ha, rfl⟩ := (convert_ok_iff input key).mp h
  refine ⟨by simpa using hl, ?_⟩
  intro c hc
  obtain ⟨x, hx, rfl⟩ := List.mem_map.mp hc
  exact toupper_range (ha x hx)

theorem map_toupper_of_isKey {k : CStr} (h : IsKey k) : k.map toupper = k := by
  have : ∀ c ∈ k, toupper c = c := fun c hc => toupper_of_upper (h.2 c hc)
  calc k.map toupper = k.map id := List.map_congr_left this
    _ = k := List.map_id k

theorem convert_of_isKey {k : CStr} (h : IsKey k) : convert_to_upper (some k) = .ok k := by
  rw [convert_ok_iff]
  exact ⟨k, rfl, h.1, fun c hc => isalpha_of_upper (h.2 c hc), (map_toupper_of_isKey h).symm⟩

/-! strcmp -/

theorem strcmp_eq_zero_iff (a b : CStr) : strcmp a b = 0 ↔ a = b := by
  induction a generalizing b with
  | nil => cases b <;> simp [strcmp]
  | cons x xs ih =>
    cases b with
    | nil => simp [strcmp]
    | cons y ys =>
      by_cases hxy : x = y
      · simp [strcmp, hxy, ih]
      · by_cases hlt : x < y <;> simp [strcmp, hxy, hlt]

theorem strcmp_swap (a b : CStr) : strcmp b a = - strcmp a b := by
  induction a generalizing b with
  | nil => cases b <;> simp [strcmp]
  | cons x xs ih =>
    cases b with
    | nil => simp [strcmp]
    | cons y ys =>
      by_cases hxy : x = y
      · subst hxy; simp [strcmp, ih]
      · have hyx : ¬ y = x := fun h => hxy h.symm
        by_cases hlt : x < y
        · have : ¬ y < x := by omega
          simp [strcmp, hxy, hyx, hlt, this]
        · have : y < x := by omega
          simp [strcmp, hxy, hyx, hlt, this]

theorem strcmp_le_trans {a b c : CStr} (h1 : strcmp a b ≤ 0) (h2 : strcmp b c ≤ 0) :
    strcmp a c ≤ 0 := by
  induction a generalizing b c with
  | nil => cases c <;> simp [strcmp]
  | cons x xs ih =>
    cases b with
    | nil => simp [strcmp] at h1
    | cons y ys =>
      cases c with
      | nil => simp [strcmp] at h2
      | cons z zs =>
        simp only [strcmp] at h1 h2 ⊢
        by_cases hxy : x = y
        · subst hxy
          by_cases hxz : x = z
          · subst hxz
            simp only [if_true] at h1 h2 ⊢
            exact ih h1 h2
          · simp only [hxz, if_false] at h2 ⊢
            exact h2
        · simp only [hxy, if_false] at h1
          have hlt : x < y := by
            by_contra hn
            simp [hn] at h1
          by_cases hyz : y = z
          · subst hyz
            simp [hxy, hlt]
          · simp only [hyz, if_false] at h2
            have hlt2 : y < z := by
              by_contra hn
              simp [hn] at h2
            have : x < z := by omega
            have hne : ¬ x = z := by omega
            simp [hne, this]




theorem key_bytes {k : CStr} (h : IsKey k) :
    ∃ a b c rest, k = a :: b :: c :: rest ∧ (65 ≤ a ∧ a ≤ 90) ∧ (65 ≤ b ∧ b ≤ 90) ∧
      (65 ≤ c ∧ c ≤ 90) := by
  obtain ⟨hl, hc⟩ := h
  match k, hl, hc with
  | a :: b :: c :: rest, _, hc =>
    exact ⟨a, b, c, rest, rfl, hc a (by simp), hc b (by simp), hc c (by simp)⟩

theorem char_to_index_upper {c : Nat} (h : 65 ≤ c ∧ c ≤ 90) : char_to_index c = c - 65 := by
  unfold char_to_index; omega

theorem vowel_to_index_lt (c : Nat) : vowel_to_index c < 7 := by
  unfold vowel_to_index
  repeat' split
  all_goals omega

theorem insert_sorted_nil (key : CStr) : insert_sorted [] key = [key] := rfl

theorem head_update_eq (head : Chain) (key : CStr) :
    (if head = [] then create_node key else insert_sorted head key) = insert_sorted head key := by
  split
  · next h => subst h; rfl
  · rfl

/-- What `add_name` does with a key, on an array with no released slot. -/
theorem add_name_key {r : Root} {n : Option CStr} {key : CStr} (hr : NoFreed r)
    (hc : convert_to_upper n = .ok key) (hk : IsKey key) :
    ∃ (i : Fin FIRST_LEVEL_SIZE) (j : Fin SECOND_LEVEL_SIZE) (k : Fin THIRD_LEVEL_SIZE),
      i.val = char_to_index (key.getD 0 0) ∧ j.val = vowel_to_index (key.getD 1 0) ∧
      k.val = char_to_index (key.getD 2 0) ∧ add_name r n = .ok (0, put r i j k key) := by
  obtain ⟨a, b, c, rest, rfl, ha, hb, hcc⟩ := key_bytes hk
  have h1 : char_to_index a < FIRST_LEVEL_SIZE := by rw [char_to_index_upper ha]; show _ < 26; omega
  have h2 : vowel_to_index b < SECOND_LEVEL_SIZE := vowel_to_index_lt b
  have h3 : char_to_index c < THIRD_LEVEL_SIZE := by rw [char_to_index_upper hcc]; show _ < 26; omega
  refine ⟨⟨_, h1⟩, ⟨_, h2⟩, ⟨_, h3⟩, rfl, rfl, rfl, ?_⟩
  unfold add_name
  rw [hc]
  simp only [char_at, List.length_cons, List.getD_cons_zero, List.getD_cons_succ]
  simp only [Nat.zero_lt_succ, Nat.succ_lt_succ_iff, if_true, dif_pos h1, dif_pos h2, dif_pos h3]
  have hne := hr ⟨_, h1⟩
  unfold put
  cases hs : r ⟨char_to_index a, h1⟩ with
  | freed => exact absurd hs hne
  | null =>
    simp only [blocks_of, head_update_eq]
    rfl
  | live g =>
    simp only [blocks_of, head_update_eq]
    cases hb : g.second_level ⟨vowel_to_index b, h2⟩ <;> simp only [block_of]



theorem noFreed_put {r : Root} (hr : NoFreed r) (i : Fin FIRST_LEVEL_SIZE)
    (j : Fin SECOND_LEVEL_SIZE) (k : Fin THIRD_LEVEL_SIZE) (key : CStr) :
    NoFreed (put r i j k key) := by
  intro i1
  unfold put
  by_cases h : i1 = i
  · subst h; simp
  · rw [Function.update_noteq h]; exact hr i1

theorem chain_at_blocks (r : Root) (i : Fin FIRST_LEVEL_SIZE) (j : Fin SECOND_LEVEL_SIZE)
    (k : Fin THIRD_LEVEL_SIZE) :
    (block_of ((blocks_of (r i)).second_level j)).third_level k = chain_at r i j k := by
  unfold chain_at
  cases r i with
  | null => rfl
  | freed => rfl
  | live g => simp only [blocks_of]; cases g.second_level j <;> rfl

theorem chain_at_put (r : Root) (i i1 : Fin FIRST_LEVEL_SIZE) (j j1 : Fin SECOND_LEVEL_SIZE)
    (k k1 : Fin THIRD_LEVEL_SIZE) (key : CStr) :
    chain_at (put r i j k key) i1 j1 k1 =
      if i1 = i ∧ j1 = j ∧ k1 = k then insert_sorted (chain_at r i j k) key
      else chain_at r i1 j1 k1 := by
  by_cases hi : i1 = i
  · subst hi
    by_cases hj : j1 = j
    · subst hj
      by_cases hk : k1 = k
      · subst hk
        simp [chain_at, put, chain_at_blocks]
      · have := chain_at_blocks r i1 j1 k1
        simp [chain_at, put, hk, Function.update_noteq hk]
        rw [this]; rfl
    · have : ¬ (i1 = i1 ∧ j1 = j ∧ k1 = k) := fun h => hj h.2.1
      rw [if_neg this]
      simp only [chain_at, put, Function.update_same, Function.update_noteq hj]
      cases r i1 with
      | null => rfl
      | freed => rfl
      | live g => rfl
  · have : ¬ (i1 = i ∧ j1 = j ∧ k1 = k) := fun h => hi h.1
    rw [if_neg this]
    simp only [chain_at, put, Function.update_noteq hi]

theorem slot_vals {key : CStr} (hk : IsKey key) :
    (slot1 key).val = char_to_index (key.getD 0 0) ∧
    (slot2 key).val = vowel_to_index (key.getD 1 0) ∧
    (slot3 key).val = char_to_index (key.getD 2 0) := by
  obtain ⟨a, b, c, rest, rfl, ha, hb, hc⟩ := key_bytes hk
  have hv := vowel_to_index_lt b
  simp only [slot1, slot2, slot3, List.getD_cons_zero, List.getD_cons_succ,
    char_to_index_upper ha, char_to_index_upper hc]
  omega

/-- What `add_name` does with a valid name, on an array with no released slot. -/
theorem add_name_ok {r : Root} {n : Option CStr} {key : CStr} (hr : NoFreed r)
    (hc : convert_to_upper n = .ok key) :
    add_name r n = .ok (0, put r (slot1 key) (slot2 key) (slot3 key) key) := by
  have hk := convert_isKey hc
  obtain ⟨i, j, k, hi, hj, hk3, h⟩ := add_name_key hr hc hk
  obtain ⟨h1, h2, h3⟩ := slot_vals hk
  have e1 : i = slot1 key := Fin.ext (by rw [hi, h1])
  have e2 : j = slot2 key := Fin.ext (by rw [hj, h2])
  have e3 : k = slot3 key := Fin.ext (by rw [hk3, h3])
  rw [h, e1, e2, e3]

/-- What `add_name` does with a name that fails validation. -/
theorem add_name_rejected (r : Root) {n : Option CStr} {d : Diag}
    (hc : convert_to_upper n = .error d) : add_name r n = .ok (1, r) := by
  unfold add_name; rw [hc]

theorem add_name_cases {r r1 : Root} {n : Option CStr} {rc : Int} (hr : NoFreed r)
    (h : add_name r n = .ok (rc, r1)) :
    (rc = 1 ∧ r1 = r ∧ ∃ d, convert_to_upper n = .error d) ∨
    (rc = 0 ∧ ∃ key, convert_to_upper n = .ok key ∧
      r1 = put r (slot1 key) (slot2 key) (slot3 key) key) := by
  cases hc : convert_to_upper n with
  | error d =>
    rw [add_name_rejected r hc] at h
    injection h with h
    injection h with h1 h2
    exact Or.inl ⟨h1.symm, h2.symm, d, rfl⟩
  | ok key =>
    rw [add_name_ok hr hc] at h
    injection h with h
    injection h with h1 h2
    exact Or.inr ⟨h1.symm, key, rfl, h2.symm⟩

theorem noFreed_init : NoFreed first_level_init := by
  intro i h; cases h

theorem noFreed_add_name {r r1 : Root} {n : Option CStr} {rc : Int} (hr : NoFreed r)
    (h : add_name r n = .ok (rc, r1)) : NoFreed r1 := by
  rcases add_name_cases hr h with ⟨-, rfl, -⟩ | ⟨-, key, -, rfl⟩
  · exact hr
  · exact noFreed_put hr _ _ _ _

theorem Reachable.noFreed {r : Root} (h : Reachable r) : NoFreed r := by
  induction h with
  | init => exact noFreed_init
  | step _ hadd ih => exact noFreed_add_name ih hadd

/-- On an array with no released slot `add_name` always returns. -/
theorem add_name_total {r : Root} (hr : NoFreed r) (n : Option CStr) :
    ∃ rc r1, add_name r n = .ok (rc, r1) := by
  cases hc : convert_to_upper n with
  | error d => exact ⟨1, r, add_name_rejected r hc⟩
  | ok key => exact ⟨0, _, add_name_ok hr hc⟩

theorem add_names_total {r : Root} (hr : NoFreed r) (ns : List (Option CStr)) :
    ∃ r1, add_names r ns = .ok r1 ∧ NoFreed r1 := by
  induction ns generalizing r with
  | nil => exact ⟨r, rfl, hr⟩
  | cons n ns ih =>
    obtain ⟨rc, r1, h⟩ := add_name_total hr n
    obtain ⟨r2, h2, hn⟩ := ih (noFreed_add_name hr h)
    exact ⟨r2, by simp only [add_names, h, h2], hn⟩

theorem Reachable.add_names {r r1 : Root} (hr : Reachable r) {ns : List (Option CStr)}
    (h : add_names r ns = .ok r1) : Reachable r1 := by
  induction ns generalizing r with
  | nil => simp only [HB.add_names] at h; injection h with h; exact h ▸ hr
  | cons n ns ih =>
    obtain ⟨rc, r2, h2⟩ := add_name_total hr.noFreed n
    simp only [HB.add_names, h2] at h
    exact ih (Reachable.step hr h2) h

/-- What `find_name` does with a key, on an array with no released slot. -/
theorem find_name_key {r : Root} {key : CStr} (hr : NoFreed r) (hk : IsKey key) :
    find_name r key =
      .ok (find_name_loop (chain_at r (slot1 key) (slot2 key) (slot3 key)) key) := by
  obtain ⟨h1, h2, h3⟩ := slot_vals hk
  obtain ⟨a, b, c, rest, rfl, ha, hb, hcc⟩ := key_bytes hk
  simp only [List.getD_cons_zero, List.getD_cons_succ] at h1 h2 h3
  have l1 : char_to_index a < FIRST_LEVEL_SIZE := h1 ▸ (slot1 _).isLt
  have l2 : vowel_to_index b < SECOND_LEVEL_SIZE := h2 ▸ (slot2 _).isLt
  have l3 : char_to_index c < THIRD_LEVEL_SIZE := h3 ▸ (slot3 _).isLt
  have e1 : (⟨_, l1⟩ : Fin FIRST_LEVEL_SIZE) = slot1 (a :: b :: c :: rest) := Fin.ext h1.symm
  have e2 : (⟨_, l2⟩ : Fin SECOND_LEVEL_SIZE) = slot2 (a :: b :: c :: rest) := Fin.ext h2.symm
  have e3 : (⟨_, l3⟩ : Fin THIRD_LEVEL_SIZE) = slot3 (a :: b :: c :: rest) := Fin.ext h3.symm
  unfold find_name
  simp only [char_at, List.length_cons, List.getD_cons_zero, List.getD_cons_succ]
  simp only [Nat.zero_lt_succ, Nat.succ_lt_succ_iff, if_true, dif_pos l1, dif_pos l2, dif_pos l3]
  rw [e1, e2, e3]
  have hne := hr (slot1 (a :: b :: c :: rest))
  unfold chain_at
  cases hs : r (slot1 (a :: b :: c :: rest)) with
  | freed => exact absurd hs hne
  | null => rfl
  | live g =>
    simp only
    cases g.second_level (slot2 (a :: b :: c :: rest)) <;> rfl

theorem find_name_loop_mem {c : Chain} {key : CStr} (h : key ∈ c) :
    ∃ rest, find_name_loop c key = key :: rest := by
  induction c with
  | nil => cases h
  | cons x xs ih =>
    by_cases hx : strcmp x key = 0
    · have := (strcmp_eq_zero_iff x key).mp hx
      subst this
      exact ⟨xs, by simp [find_name_loop, hx]⟩
    · have hne : key ≠ x := fun e => hx ((strcmp_eq_zero_iff x key).mpr e.symm)
      rcases List.mem_cons.mp h with e | hm
      · exact absurd e hne
      · obtain ⟨rest, hrest⟩ := ih hm
        exact ⟨rest, by simp [find_name_loop, hx, hrest]⟩

theorem find_name_loop_found {c : Chain} {key x : CStr} {rest : Chain}
    (h : find_name_loop c key = x :: rest) : x = key ∧ key ∈ c := by
  induction c with
  | nil => simp [find_name_loop] at h
  | cons y ys ih =>
    by_cases hy : strcmp y key = 0
    · have e := (strcmp_eq_zero_iff y key).mp hy
      simp only [find_name_loop, hy, if_true] at h
      injection h with h1 h2
      exact ⟨h1 ▸ e, by rw [e]; exact List.mem_cons_self _ _⟩
    · simp only [find_name_loop, hy, if_false] at h
      obtain ⟨e, hm⟩ := ih h
      exact ⟨e, List.mem_cons_of_mem _ hm⟩

theorem find_name_loop_not_mem {c : Chain} {key : CStr} (h : key ∉ c) :
    find_name_loop c key = [] := by
  cases hf : find_name_loop c key with
  | nil => rfl
  | cons x rest => exact absurd (find_name_loop_found hf).2 h

theorem insert_after_perm (c : Chain) (key : CStr) : (insert_after c key).Perm (key :: c) := by
  induction c with
  | nil => exact List.Perm.refl _
  | cons x xs ih =>
    unfold insert_after
    split
    · exact (List.Perm.cons x ih).trans (List.Perm.swap key x xs)
    · exact List.Perm.refl _

theorem insert_sorted_perm (c : Chain) (key : CStr) : (insert_sorted c key).Perm (key :: c) := by
  cases c with
  | nil => exact List.Perm.refl _
  | cons x xs =>
    unfold insert_sorted
    simp only
    split
    · exact List.Perm.refl _
    · exact (List.Perm.cons x (insert_after_perm xs key)).trans (List.Perm.swap key x xs)

theorem mem_insert_sorted {c : Chain} {key x : CStr} :
    x ∈ insert_sorted c key ↔ x = key ∨ x ∈ c := by
  rw [(insert_sorted_perm c key).mem_iff, List.mem_cons]

theorem mem_chain_put {r : Root} {i i1 : Fin FIRST_LEVEL_SIZE} {j j1 : Fin SECOND_LEVEL_SIZE}
    {k k1 : Fin THIRD_LEVEL_SIZE} {key x : CStr} (h : x ∈ chain_at r i1 j1 k1) :
    x ∈ chain_at (put r i j k key) i1 j1 k1 := by
  rw [chain_at_put]
  split
  · next hh =>
    obtain ⟨rfl, rfl, rfl⟩ := hh
    exact mem_insert_sorted.mpr (Or.inr h)
  · exact h

theorem mem_chain_add_name {r r1 : Root} {n : Option CStr} {rc : Int} (hr : NoFreed r)
    (h : add_name r n = .ok (rc, r1)) {i : Fin FIRST_LEVEL_SIZE} {j : Fin SECOND_LEVEL_SIZE}
    {k : Fin THIRD_LEVEL_SIZE} {x : CStr} (hx : x ∈ chain_at r i j k) : x ∈ chain_at r1 i j k := by
  rcases add_name_cases hr h with ⟨-, rfl, -⟩ | ⟨-, key, -, rfl⟩
  · exact hx
  · exact mem_chain_put hx

theorem mem_chain_add_names {r r1 : Root} {ns : List (Option CStr)} (hr : NoFreed r)
    (h : add_names r ns = .ok r1) {i : Fin FIRST_LEVEL_SIZE} {j : Fin SECOND_LEVEL_SIZE}
    {k : Fin THIRD_LEVEL_SIZE} {x : CStr} (hx : x ∈ chain_at r i j k) : x ∈ chain_at r1 i j k := by
  induction ns generalizing r with
  | nil => simp only [add_names] at h; injection h with h; exact h ▸ hx
  | cons n ns ih =>
    obtain ⟨rc, r2, h2⟩ := add_name_total hr n
    simp only [add_names, h2] at h
    exact ih (noFreed_add_name hr h2) h (mem_chain_add_name hr h2 hx)

/-- What `find_names` does with a valid name, on an array with no released slot. -/
theorem find_names_ok {r : Root} {n : Option CStr} {key : CStr} (hr : NoFreed r)
    (hc : convert_to_upper n = .ok key) :
    (key ∈ chain_at r (slot1 key) (slot2 key) (slot3 key) → find_names r n = .ok (0, r)) ∧
    (key ∉ chain_at r (slot1 key) (slot2 key) (slot3 key) → find_names r n = .ok (1, r)) := by
  have hk := convert_isKey hc
  constructor
  · intro hm
    obtain ⟨rest, hrest⟩ := find_name_loop_mem hm
    unfold find_names
    rw [hc]; simp only
    rw [find_name_key hr hk, hrest]
  · intro hm
    unfold find_names
    rw [hc]; simp only
    rw [find_name_key hr hk, find_name_loop_not_mem hm]

/-- What `find_names` does with a name that fails validation. -/
theorem find_names_rejected (r : Root) {n : Option CStr} {d : Diag}
    (hc : convert_to_upper n = .error d) : find_names r n = .ok (1, r) := by
  unfold find_names; rw [hc]

theorem valid_convert {n : CStr} (hlen : 3 ≤ n.length) (halpha : ∀ c ∈ n, isalpha c = true) :
    convert_to_upper (some n) = .ok (n.map toupper) :=
  (convert_ok_iff _ _).mpr ⟨n, rfl, hlen, halpha, rfl⟩

/-- C1: in every state reachable from the empty index, adding a valid name `n`
(at least 3 characters, all alphabetic) returns 0, and after that call and any
further `add_name` calls `find_name` on the uppercased form of `n` returns a
record whose key is that uppercased form, and `find_names` returns 0. -/
theorem find_after_insert (r : Root) (n : CStr) (more : List (Option CStr))
    (hr : Reachable r) (hlen : 3 ≤ n.length) (halpha : ∀ c ∈ n, isalpha c = true) :
    ∃ r1 r2 rest,
      convert_to_upper (some n) = .ok (n.map toupper) ∧
      add_name r (some n) = .ok (0, r1) ∧
      add_names r1 more = .ok r2 ∧
      find_name r2 (n.map toupper) = .ok (n.map toupper :: rest) ∧
      find_names r2 (some (n.map toupper)) = .ok (0, r2) := by
  have hc := valid_convert hlen halpha
  have hk := convert_isKey hc
  have hadd := add_name_ok hr.noFreed hc
  have hn1 := noFreed_put hr.noFreed (slot1 (n.map toupper)) (slot2 (n.map toupper))
    (slot3 (n.map toupper)) (n.map toupper)
  obtain ⟨r2, h2, hn2⟩ := add_names_total hn1 more
  have hm1 : n.map toupper ∈ chain_at (put r (slot1 (n.map toupper)) (slot2 (n.map toupper))
      (slot3 (n.map toupper)) (n.map toupper)) (slot1 (n.map toupper)) (slot2 (n.map toupper))
      (slot3 (n.map toupper)) := by
    rw [chain_at_put, if_pos ⟨rfl, rfl, rfl⟩]
    exact mem_insert_sorted.mpr (Or.inl rfl)
  have hm2 := mem_chain_add_names hn1 h2 hm1
  obtain ⟨rest, hrest⟩ := find_name_loop_mem hm2
  refine ⟨_, r2, rest, hc, hadd, h2, ?_, ?_⟩
  · rw [find_name_key hn2 hk, hrest]
  · exact (find_names_ok hn2 (convert_of_isKey hk)).1 hm2

/-- An instance of C1: Jane into the empty index, then Tim. -/
theorem find_after_insert_witness :
    Reachable first_level_init ∧ 3 ≤ (cstr "Jane").length ∧
    (∀ c ∈ cstr "Jane", isalpha c = true) ∧
    ∃ r1 r2 rest,
      convert_to_upper (some (cstr "Jane")) = .ok ((cstr "Jane").map toupper) ∧
      add_name first_level_init (some (cstr "Jane")) = .ok (0, r1) ∧
      add_names r1 [some (cstr "Tim")] = .ok r2 ∧
      find_name r2 ((cstr "Jane").map toupper) = .ok ((cstr "Jane").map toupper :: rest) ∧
      find_names r2 (some ((cstr "Jane").map toupper)) = .ok (0, r2) :=
  ⟨Reachable.init, by decide, by decide,
    find_after_insert first_level_init (cstr "Jane") [some (cstr "Tim")] Reachable.init
      (by decide) (by decide)⟩

theorem chain_at_init (i : Fin FIRST_LEVEL_SIZE) (j : Fin SECOND_LEVEL_SIZE)
    (k : Fin THIRD_LEVEL_SIZE) : chain_at first_level_init i j k = [] := rfl

theorem mem_chain_put_inv {r : Root} {i i1 : Fin FIRST_LEVEL_SIZE} {j j1 : Fin SECOND_LEVEL_SIZE}
    {k k1 : Fin THIRD_LEVEL_SIZE} {key x : CStr} (h : x ∈ chain_at (put r i j k key) i1 j1 k1) :
    x ∈ chain_at r i1 j1 k1 ∨ (x = key ∧ i1 = i ∧ j1 = j ∧ k1 = k) := by
  rw [chain_at_put] at h
  split at h
  · next hh =>
    obtain ⟨rfl, rfl, rfl⟩ := hh
    rcases mem_insert_sorted.mp h with e | hm
    · exact Or.inr ⟨e, rfl, rfl, rfl⟩
    · exact Or.inl hm
  · exact Or.inl h

theorem mem_chain_add_names_inv {r r1 : Root} {ns : List (Option CStr)} (hr : NoFreed r)
    (h : add_names r ns = .ok r1) {i : Fin FIRST_LEVEL_SIZE} {j : Fin SECOND_LEVEL_SIZE}
    {k : Fin THIRD_LEVEL_SIZE} {x : CStr} (hx : x ∈ chain_at r1 i j k) :
    x ∈ chain_at r i j k ∨ ∃ n ∈ ns, convert_to_upper n = .ok x := by
  induction ns generalizing r with
  | nil => simp only [add_names] at h; injection h with h; exact Or.inl (h ▸ hx)
  | cons n ns ih =>
    obtain ⟨rc, r2, h2⟩ := add_name_total hr n
    simp only [add_names, h2] at h
    rcases ih (noFreed_add_name hr h2) h with hm | ⟨m, hm, hcm⟩
    · rcases add_name_cases hr h2 with ⟨-, rfl, -⟩ | ⟨-, key, hkey, rfl⟩
      · exact Or.inl hm
      · rcases mem_chain_put_inv hm with hm1 | ⟨rfl, -⟩
        · exact Or.inl hm1
        · exact Or.inr ⟨n, List.mem_cons_self _ _, hkey⟩
    · exact Or.inr ⟨m, List.mem_cons_of_mem _ hm, hcm⟩

/-- What a return value of 0 from `find_names` means, on an array with no released slot. -/
theorem find_names_zero {r r1 : Root} {m : Option CStr} (hr : NoFreed r)
    (h : find_names r m = .ok (0, r1)) :
    ∃ key, convert_to_upper m = .ok key ∧
      key ∈ chain_at r (slot1 key) (slot2 key) (slot3 key) := by
  cases hc : convert_to_upper m with
  | error d =>
    rw [find_names_rejected r hc] at h
    injection h with h
    injection h with h1 _
    exact absurd h1 (by decide)
  | ok key =>
    refine ⟨key, rfl, ?_⟩
    by_contra hm
    rw [(find_names_ok hr hc).2 hm] at h
    injection h with h
    injection h with h1 _
    exact absurd h1 (by decide)

/-- C2: after any sequence of `add_name` calls on the empty index, `find_names m`
returns 0 only if `m` is valid and an earlier call added a name with the same
normalised key; on the empty index every valid name is reported not found; and
after Bill, Jane, Lincoln, Tim the name Zephyr is not found. -/
theorem find_sound (names : List (Option CStr)) (m : Option CStr) :
    ∃ r, add_names first_level_init names = .ok r ∧
      (find_names r m = .ok (0, r) ∨ find_names r m = .ok (1, r)) ∧
      (∀ r1, find_names r m = .ok (0, r1) →
        ∃ key, convert_to_upper m = .ok key ∧
          ∃ n ∈ names, convert_to_upper n = .ok key ∧ ∀ s, Reachable s →
            ∃ s1, add_name s n = .ok (0, s1)) ∧
      (∀ key, convert_to_upper m = .ok key →
        find_names first_level_init m = .ok (1, first_level_init)) ∧
      (∃ r4, add_names first_level_init
          [some (cstr "Bill"), some (cstr "Jane"), some (cstr "Lincoln"), some (cstr "Tim")]
            = .ok r4 ∧
        find_names r4 (some (cstr "Zephyr")) = .ok (1, r4)) := by
  obtain ⟨r, hr, hn⟩ := add_names_total noFreed_init names
  refine ⟨r, hr, ?_, ?_, ?_, ?_⟩
  · cases hc : convert_to_upper m with
    | error d => exact Or.inr (find_names_rejected r hc)
    | ok key =>
      by_cases hm : key ∈ chain_at r (slot1 key) (slot2 key) (slot3 key)
      · exact Or.inl ((find_names_ok hn hc).1 hm)
      · exact Or.inr ((find_names_ok hn hc).2 hm)
  · intro r1 h
    obtain ⟨key, hc, hm⟩ := find_names_zero hn h
    refine ⟨key, hc, ?_⟩
    rcases mem_chain_add_names_inv noFreed_init hr hm with h0 | ⟨n, hnm, hcn⟩
    · rw [chain_at_init] at h0; cases h0
    · exact ⟨n, hnm, hcn, fun s hs => ⟨_, add_name_ok hs.noFreed hcn⟩⟩
  · intro key hc
    exact (find_names_ok noFreed_init hc).2 (by rw [chain_at_init]; exact List.not_mem_nil _)
  · exact ⟨_, rfl, rfl⟩

theorem convert_error_iff (input : Option CStr) :
    (∃ d, convert_to_upper input = .error d) ↔
      (input = none ∨ ∃ s, input = some s ∧ (s.length < 3 ∨ ∃ c ∈ s, isalpha c = false)) := by
  constructor
  · rintro ⟨d, hd⟩
    cases input with
    | none => exact Or.inl rfl
    | some s =>
      right
      refine ⟨s, rfl, ?_⟩
      by_contra hcon
      push_neg at hcon
      have ha : ∀ c ∈ s, isalpha c = true := fun c hc => by
        have := hcon.2 c hc
        simpa using this
      rw [valid_convert hcon.1 ha] at hd
      cases hd
  · rintro (rfl | ⟨s, rfl, hlt | hbad⟩)
    · exact ⟨Diag.too_short, rfl⟩
    · exact ⟨Diag.too_short, by simp [convert_to_upper, hlt]⟩
    · by_cases hlt : s.length < 3
      · exact ⟨Diag.too_short, by simp [convert_to_upper, hlt]⟩
      · exact ⟨Diag.invalid_character, by simp [convert_to_upper, hlt, convert_loop_error hbad]⟩

theorem add_name_one {r r1 : Root} {n : Option CStr} (h : add_name r n = .ok (1, r1)) :
    ∃ d, convert_to_upper n = .error d := by
  cases hc : convert_to_upper n with
  | error d => exact ⟨d, rfl⟩
  | ok key =>
    exfalso
    unfold add_name at h
    rw [hc] at h
    simp only at h
    split at h
    · split at h
      · split at h
        · cases h
        · split at h
          · split at h
            · injection h with h
              injection h with h1 _
              exact absurd h1 (by decide)
            · cases h
          · cases h
      · cases h
    · cases h

/-- C3: `convert_to_upper` fails exactly when the input is absent, has fewer
than 3 characters, or holds a character that is not a letter, and succeeds on
every other input; `add_name` returns 1 on exactly the same inputs. -/
theorem validation_rejects_exactly (input : Option CStr) :
    ((∃ d, convert_to_upper input = .error d) ↔
      (input = none ∨ ∃ s, input = some s ∧ (s.length < 3 ∨ ∃ c ∈ s, isalpha c = false))) ∧
    ((∃ key, convert_to_upper input = .ok key) ↔
      ¬ (input = none ∨ ∃ s, input = some s ∧ (s.length < 3 ∨ ∃ c ∈ s, isalpha c = false))) ∧
    (∀ r : Root, (∃ r1, add_name r input = .ok (1, r1)) ↔
      (input = none ∨ ∃ s, input = some s ∧ (s.length < 3 ∨ ∃ c ∈ s, isalpha c = false))) := by
  refine ⟨convert_error_iff input, ?_, ?_⟩
  · rw [← convert_error_iff]
    cases hc : convert_to_upper input with
    | error d => simp
    | ok key => simp
  · intro r
    rw [← convert_error_iff]
    constructor
    · rintro ⟨r1, h⟩
      exact add_name_one h
    · rintro ⟨d, hd⟩
      exact ⟨r, add_name_rejected r hd⟩

/-- C4: for every state of the index and every name that is shorter than 3
characters or holds a non-alphabetic character, `add_name` and `find_names`
both return 1 and hand back the index exactly as it was, so the calls that
follow behave as if the rejected call had not been made. -/
theorem rejected_input_unchanged (r : Root) (s : CStr)
    (h : s.length < 3 ∨ ∃ c ∈ s, isalpha c = false) :
    add_name r (some s) = .ok (1, r) ∧ find_names r (some s) = .ok (1, r) ∧
    (∀ ns, add_names r (some s :: ns) = add_names r ns) := by
  obtain ⟨d, hd⟩ := (convert_error_iff (some s)).mpr (Or.inr ⟨s, rfl, h⟩)
  refine ⟨add_name_rejected r hd, find_names_rejected r hd, ?_⟩
  intro ns
  simp only [add_names, add_name_rejected r hd]

/-- An instance of C4: the name X1 on the index holding ANN. -/
theorem rejected_input_unchanged_witness :
    ((cstr "X1").length < 3 ∨ ∃ c ∈ cstr "X1", isalpha c = false) ∧
    add_name (put first_level_init 0 6 13 (cstr "ANN")) (some (cstr "X1"))
      = .ok (1, put first_level_init 0 6 13 (cstr "ANN")) ∧
    find_names (put first_level_init 0 6 13 (cstr "ANN")) (some (cstr "X1"))
      = .ok (1, put first_level_init 0 6 13 (cstr "ANN")) ∧
    (∀ ns, add_names (put first_level_init 0 6 13 (cstr "ANN")) (some (cstr "X1") :: ns)
      = add_names (put first_level_init 0 6 13 (cstr "ANN")) ns) :=
  ⟨Or.inl (by decide),
    rejected_input_unchanged (put first_level_init 0 6 13 (cstr "ANN")) (cstr "X1")
      (Or.inl (by decide))⟩

/-- C5: two valid names that differ only in letter case get the same key from
`convert_to_upper`, so in every state `find_names` gives the same result for
both, `find_name` hands back the same record, and `add_name` builds the same
index. -/
theorem case_insensitive (a b : CStr) (ha : 3 ≤ a.length ∧ ∀ c ∈ a, isalpha c = true)
    (hb : 3 ≤ b.length ∧ ∀ c ∈ b, isalpha c = true) (hab : a.map toupper = b.map toupper) :
    convert_to_upper (some a) = .ok (a.map toupper) ∧
    convert_to_upper (some b) = .ok (a.map toupper) ∧
    ∀ r : Root, find_names r (some a) = find_names r (some b) ∧
      find_name r (a.map toupper) = find_name r (b.map toupper) ∧
      add_name r (some a) = add_name r (some b) := by
  have h1 := valid_convert ha.1 ha.2
  have h2 := valid_convert hb.1 hb.2
  rw [← hab] at h2
  refine ⟨h1, h2, fun r => ⟨?_, ?_, ?_⟩⟩
  · unfold find_names; rw [h1, h2]
  · rw [hab]
  · unfold add_name; rw [h1, h2]

/-- An instance of C5: jane and JANE. -/
theorem case_insensitive_witness :
    convert_to_upper (some (cstr "jane")) = .ok ((cstr "jane").map toupper) ∧
    convert_to_upper (some (cstr "JANE")) = .ok ((cstr "jane").map toupper) ∧
    ∀ r : Root, find_names r (some (cstr "jane")) = find_names r (some (cstr "JANE")) ∧
      find_name r ((cstr "jane").map toupper) = find_name r ((cstr "JANE").map toupper) ∧
      add_name r (some (cstr "jane")) = add_name r (some (cstr "JANE")) :=
  case_insensitive (cstr "jane") (cstr "JANE") ⟨by decide, by decide⟩ ⟨by decide, by decide⟩
    (by decide)

/-- C6: whenever `convert_to_upper` succeeds on `s`, its output has the length
of `s` (so at least 3), holds only bytes in `'A'..'Z'`, has at each position the
uppercase form of the byte of `s` there, and is returned unchanged when it is
converted again. -/
theorem normalization_postcondition (s out : CStr) (h : convert_to_upper (some s) = .ok out) :
    out.length = s.length ∧ 3 ≤ out.length ∧ (∀ c ∈ out, 65 ≤ c ∧ c ≤ 90) ∧
    (∀ i, i < s.length → out.getD i 0 = toupper (s.getD i 0)) ∧
    convert_to_upper (some out) = .ok out := by
  have hk := convert_isKey h
  obtain ⟨s1, hs, hl, ha, rfl⟩ := (convert_ok_iff _ _).mp h
  injection hs with hs
  subst hs
  refine ⟨List.length_map _ _, hk.1, hk.2, ?_, convert_of_isKey hk⟩
  intro i hi
  rw [List.getD_eq_getElem _ _ (by simpa using hi), List.getD_eq_getElem _ _ hi, List.getElem_map]

/-- An instance of C6: Jane becomes JANE. -/
theorem normalization_postcondition_witness :
    convert_to_upper (some (cstr "Jane")) = .ok (cstr "JANE") ∧
    (cstr "JANE").length = (cstr "Jane").length ∧ 3 ≤ (cstr "JANE").length ∧
    (∀ c ∈ cstr "JANE", 65 ≤ c ∧ c ≤ 90) ∧
    (∀ i, i < (cstr "Jane").length → (cstr "JANE").getD i 0 = toupper ((cstr "Jane").getD i 0)) ∧
    convert_to_upper (some (cstr "JANE")) = .ok (cstr "JANE") :=
  ⟨rfl, normalization_postcondition (cstr "Jane") (cstr "JANE") rfl⟩

theorem insert_after_head (c : Chain) (key x : CStr) (hx : name_le x key)
    (hc : List.Chain' name_le (x :: c)) : List.Chain' name_le (x :: insert_after c key) := by
  induction c generalizing x with
  | nil => exact List.chain'_cons.mpr ⟨hx, List.chain'_singleton _⟩
  | cons y ys ih =>
    have hxy := (List.chain'_cons.mp hc).1
    have hys := (List.chain'_cons.mp hc).2
    unfold insert_after
    split
    · next hlt =>
      exact List.chain'_cons.mpr ⟨hxy, ih y (Int.le_of_lt hlt) hys⟩
    · next hge =>
      have hky : name_le key y := by
        unfold name_le
        rw [strcmp_swap y key]
        omega
      exact List.chain'_cons.mpr ⟨hx, List.chain'_cons.mpr ⟨hky, hys⟩⟩

theorem insert_sorted_chain (c : Chain) (key : CStr) (hc : List.Chain' name_le c) :
    List.Chain' name_le (insert_sorted c key) := by
  cases c with
  | nil => exact List.chain'_singleton _
  | cons x xs =>
    unfold insert_sorted
    simp only
    split
    · next hgt =>
      have hkx : name_le key x := by
        unfold name_le
        rw [strcmp_swap x key]
        omega
      exact List.chain'_cons.mpr ⟨hkx, hc⟩
    · next hle =>
      exact insert_after_head xs key x (by unfold name_le; omega) hc

theorem chain_at_sorted {r : Root} (hr : Reachable r) (i : Fin FIRST_LEVEL_SIZE)
    (j : Fin SECOND_LEVEL_SIZE) (k : Fin THIRD_LEVEL_SIZE) :
    List.Chain' name_le (chain_at r i j k) := by
  induction hr generalizing i j k with
  | init => rw [chain_at_init]; exact List.chain'_nil
  | step hr hadd ih =>
    rcases add_name_cases hr.noFreed hadd with ⟨-, rfl, -⟩ | ⟨-, key, -, rfl⟩
    · exact ih i j k
    · rw [chain_at_put]
      split
      · exact insert_sorted_chain _ _ (ih _ _ _)
      · exact ih i j k

theorem chain_at_live {r : Root} {i : Fin FIRST_LEVEL_SIZE} {j : Fin SECOND_LEVEL_SIZE}
    {blocks : HashBlocks} {block : HashBlock} (hi : r i = Ref.live blocks)
    (hj : blocks.second_level j = some block) (k : Fin THIRD_LEVEL_SIZE) :
    chain_at r i j k = block.third_level k := by
  simp only [chain_at, hi, hj]

/-- C7: in every state reachable from the empty index by `add_name` calls, in
every third-level chain each record's key is at most its successor's key under
`strcmp`. -/
theorem chains_sorted (r : Root) (hr : Reachable r) (i : Fin FIRST_LEVEL_SIZE)
    (j : Fin SECOND_LEVEL_SIZE) (k : Fin THIRD_LEVEL_SIZE) (blocks : HashBlocks)
    (block : HashBlock) (hi : r i = Ref.live blocks) (hj : blocks.second_level j = some block) :
    List.Chain' (fun a b => strcmp a b ≤ 0) (block.third_level k) := by
  rw [← chain_at_live hi hj k]
  exact chain_at_sorted hr i j k

theorem slots_anna : slot1 (cstr "ANNA") = 0 ∧ slot2 (cstr "ANNA") = 6 ∧ slot3 (cstr "ANNA") = 13 := by
  decide

theorem slots_ann : slot1 (cstr "ANN") = 0 ∧ slot2 (cstr "ANN") = 6 ∧ slot3 (cstr "ANN") = 13 := by
  decide

theorem anna_ann_reachable : Reachable anna_ann := by
  have c1 : convert_to_upper (some (cstr "Anna")) = .ok (cstr "ANNA") := rfl
  have c2 : convert_to_upper (some (cstr "Ann")) = .ok (cstr "ANN") := rfl
  have h1 := add_name_ok noFreed_init c1
  have h2 := add_name_ok (noFreed_put noFreed_init 0 6 13 (cstr "ANNA")) c2
  rw [slots_anna.1, slots_anna.2.1, slots_anna.2.2] at h1
  rw [slots_ann.1, slots_ann.2.1, slots_ann.2.2] at h2
  exact Reachable.step (Reachable.step Reachable.init h1) h2

/-- An instance of C7: the chain holding ANN and ANNA. -/
theorem chains_sorted_witness :
    Reachable anna_ann ∧
    anna_ann 0 = Ref.live (blocks_of (anna_ann 0)) ∧
    (blocks_of (anna_ann 0)).second_level 6
      = some (block_of ((blocks_of (anna_ann 0)).second_level 6)) ∧
    (block_of ((blocks_of (anna_ann 0)).second_level 6)).third_level 13
      = [cstr "ANN", cstr "ANNA"] ∧
    List.Chain' (fun a b => strcmp a b ≤ 0)
      ((block_of ((blocks_of (anna_ann 0)).second_level 6)).third_level 13) :=
  ⟨anna_ann_reachable, rfl, rfl, rfl,
    chains_sorted anna_ann anna_ann_reachable 0 6 13 (blocks_of (anna_ann 0))
      (block_of ((blocks_of (anna_ann 0)).second_level 6)) rfl rfl⟩

/-- C9: a successful `add_name` links exactly one new record: the chain the
name belongs to grows by one and holds the old keys plus the new key, also when
an equal key is already there, and no other chain changes; adding ANN twice to
the empty index leaves the chain ANN, ANN, and `find_names` still finds ANN. -/
theorem no_deduplication (r : Root) (n : CStr) (hr : Reachable r) (hlen : 3 ≤ n.length)
    (halpha : ∀ c ∈ n, isalpha c = true) :
    (∃ r1, add_name r (some n) = .ok (0, r1) ∧
      (chain_at r1 (slot1 (n.map toupper)) (slot2 (n.map toupper)) (slot3 (n.map toupper))).length
        = (chain_at r (slot1 (n.map toupper)) (slot2 (n.map toupper))
            (slot3 (n.map toupper))).length + 1 ∧
      (chain_at r1 (slot1 (n.map toupper)) (slot2 (n.map toupper)) (slot3 (n.map toupper))).Perm
        (n.map toupper ::
          chain_at r (slot1 (n.map toupper)) (slot2 (n.map toupper)) (slot3 (n.map toupper))) ∧
      (∀ i j k, ¬ (i = slot1 (n.map toupper) ∧ j = slot2 (n.map toupper) ∧
          k = slot3 (n.map toupper)) → chain_at r1 i j k = chain_at r i j k)) ∧
    (∃ r2, add_names first_level_init [some (cstr "ANN"), some (cstr "ANN")] = .ok r2 ∧
      chain_at r2 0 6 13 = [cstr "ANN", cstr "ANN"] ∧
      find_names r2 (some (cstr "ANN")) = .ok (0, r2)) := by
  constructor
  · have hc := valid_convert hlen halpha
    refine ⟨_, add_name_ok hr.noFreed hc, ?_, ?_, ?_⟩
    · rw [chain_at_put, if_pos ⟨rfl, rfl, rfl⟩, (insert_sorted_perm _ _).length_eq]
      rfl
    · rw [chain_at_put, if_pos ⟨rfl, rfl, rfl⟩]
      exact insert_sorted_perm _ _
    · intro i j k hne
      rw [chain_at_put, if_neg hne]
  · exact ⟨_, rfl, rfl, rfl⟩

/-- An instance of C9: Ann added to the index that already holds ANN and ANNA. -/
theorem no_deduplication_witness :
    chain_at anna_ann 0 6 13 = [cstr "ANN", cstr "ANNA"] ∧
    slot1 ((cstr "Ann").map toupper) = 0 ∧ slot2 ((cstr "Ann").map toupper) = 6 ∧
    slot3 ((cstr "Ann").map toupper) = 13 ∧
    ∃ r1, add_name anna_ann (some (cstr "Ann")) = .ok (0, r1) ∧
      (chain_at r1 (slot1 ((cstr "Ann").map toupper)) (slot2 ((cstr "Ann").map toupper))
        (slot3 ((cstr "Ann").map toupper))).length
        = (chain_at anna_ann (slot1 ((cstr "Ann").map toupper))
            (slot2 ((cstr "Ann").map toupper)) (slot3 ((cstr "Ann").map toupper))).length + 1 :=
  ⟨rfl, by decide, by decide, by decide,
    match (no_deduplication anna_ann (cstr "Ann") anna_ann_reachable (by decide) (by decide)).1 with
    | ⟨r1, h1, h2, _⟩ => ⟨r1, h1, h2⟩⟩

/-- Every record sits in the chain its own key selects, and its key is normalised. -/
theorem stored_key {r : Root} (hr : Reachable r) {i : Fin FIRST_LEVEL_SIZE}
    {j : Fin SECOND_LEVEL_SIZE} {k : Fin THIRD_LEVEL_SIZE} {x : CStr}
    (hx : x ∈ chain_at r i j k) : IsKey x ∧ slot1 x = i ∧ slot2 x = j ∧ slot3 x = k := by
  induction hr generalizing i j k with
  | init => rw [chain_at_init] at hx; cases hx
  | step hr hadd ih =>
    rcases add_name_cases hr.noFreed hadd with ⟨-, rfl, -⟩ | ⟨-, key, hkey, rfl⟩
    · exact ih hx
    · rcases mem_chain_put_inv hx with hm | ⟨rfl, rfl, rfl, rfl⟩
      · exact ih hm
      · exact ⟨convert_isKey hkey, rfl, rfl, rfl⟩

/-- The names one first-level slot gives up when `free_hash_blocks` visits it. -/
theorem free_blocks_eq {r : Root} {i : Fin FIRST_LEVEL_SIZE} {blocks : HashBlocks}
    (h : r i = Ref.live blocks) :
    free_blocks blocks =
      (List.finRange SECOND_LEVEL_SIZE).flatMap fun j =>
        (List.finRange THIRD_LEVEL_SIZE).flatMap fun k => chain_at r i j k := by
  unfold free_blocks
  congr 1
  funext j
  simp only [chain_at, h]
  cases blocks.second_level j with
  | none => simp
  | some b => rfl

theorem chain_at_not_live {r : Root} {i : Fin FIRST_LEVEL_SIZE}
    (h : ∀ blocks, r i ≠ Ref.live blocks) (j : Fin SECOND_LEVEL_SIZE)
    (k : Fin THIRD_LEVEL_SIZE) : chain_at r i j k = [] := by
  unfold chain_at
  cases hs : r i with
  | null => rfl
  | freed => rfl
  | live g => exact absurd hs (h g)

theorem free_loop_spec (l : List (Fin FIRST_LEVEL_SIZE)) (acc : List CStr) (r : Root)
    (hl : l.Nodup) (hr : ∀ i ∈ l, r i ≠ Ref.freed) :
    ∃ r1, free_loop l (acc, r) =
        .ok (acc ++ l.flatMap (fun i => (List.finRange SECOND_LEVEL_SIZE).flatMap fun j =>
          (List.finRange THIRD_LEVEL_SIZE).flatMap fun k => chain_at r i j k), r1) ∧
      ∀ i, r1 i = if i ∈ l then (r i).released else r i := by
  induction l generalizing acc r with
  | nil => exact ⟨r, by simp [free_loop], fun i => by simp⟩
  | cons a l ih =>
    have hal : a ∉ l := (List.nodup_cons.mp hl).1
    have hl1 : l.Nodup := (List.nodup_cons.mp hl).2
    cases hs : r a with
    | freed => exact absurd hs (hr a (List.mem_cons_self _ _))
    | null =>
      obtain ⟨r1, h1, h2⟩ := ih acc r hl1 (fun i hi => hr i (List.mem_cons_of_mem _ hi))
      refine ⟨r1, ?_, ?_⟩
      · have he : ((List.finRange SECOND_LEVEL_SIZE).flatMap fun j =>
            (List.finRange THIRD_LEVEL_SIZE).flatMap fun k => chain_at r a j k) = [] := by
          simp [chain_at_not_live (r := r) (i := a) (by rw [hs]; intro b hb; cases hb)]
        simp only [free_loop, free_step, hs, List.flatMap_cons, he, List.nil_append]
        exact h1
      · intro i
        rw [h2 i]
        by_cases hia : i = a
        · subst hia; simp [hal, hs, Ref.released]
        · simp [hia]
    | live g =>
      have hr1 : ∀ i ∈ l, Function.update r a Ref.freed i ≠ Ref.freed := by
        intro i hi
        have : i ≠ a := fun e => hal (e ▸ hi)
        rw [Function.update_noteq this]
        exact hr i (List.mem_cons_of_mem _ hi)
      obtain ⟨r1, h1, h2⟩ := ih (acc ++ free_blocks g) (Function.update r a Ref.freed) hl1 hr1
      have hch : ∀ i ∈ l, ((List.finRange SECOND_LEVEL_SIZE).flatMap fun j =>
            (List.finRange THIRD_LEVEL_SIZE).flatMap fun k =>
              chain_at (Function.update r a Ref.freed) i j k) =
          ((List.finRange SECOND_LEVEL_SIZE).flatMap fun j =>
            (List.finRange THIRD_LEVEL_SIZE).flatMap fun k => chain_at r i j k) := by
        intro i hi
        have : i ≠ a := fun e => hal (e ▸ hi)
        simp only [chain_at, Function.update_noteq this]
      refine ⟨r1, ?_, ?_⟩
      · simp only [free_loop, free_step, hs, List.flatMap_cons]
        rw [h1, List.flatMap_congr hch, free_blocks_eq hs, List.append_assoc]
      · intro i
        rw [h2 i]
        by_cases hia : i = a
        · subst hia; simp [hal, hs, Ref.released]
        · simp [hia, Function.update_noteq hia]

/-- What `free_hash_blocks` does on an array with no released slot. -/
theorem free_hash_blocks_spec {r : Root} (hr : NoFreed r) :
    ∃ r1, free_hash_blocks r = .ok (enumerate r, r1) ∧ ∀ i, r1 i = (r i).released := by
  obtain ⟨r1, h1, h2⟩ := free_loop_spec (List.finRange FIRST_LEVEL_SIZE) [] r
    (List.nodup_finRange _) (fun i _ => hr i)
  refine ⟨r1, ?_, ?_⟩
  · unfold free_hash_blocks enumerate
    rw [h1, List.nil_append]
  · intro i
    rw [h2 i, if_pos (List.mem_finRange i)]

theorem find_name_freed {r : Root} {key : CStr} (hk : IsKey key)
    (hf : r (slot1 key) = Ref.freed) : find_name r key = .error Fault.use_after_free := by
  obtain ⟨h1, h2, h3⟩ := slot_vals hk
  obtain ⟨a, b, c, rest, rfl, ha, hb, hcc⟩ := key_bytes hk
  simp only [List.getD_cons_zero, List.getD_cons_succ] at h1 h2 h3
  have l1 : char_to_index a < FIRST_LEVEL_SIZE := h1 ▸ (slot1 _).isLt
  have e1 : (⟨_, l1⟩ : Fin FIRST_LEVEL_SIZE) = slot1 (a :: b :: c :: rest) := Fin.ext h1.symm
  unfold find_name
  simp only [char_at, List.length_cons, List.getD_cons_zero, List.getD_cons_succ]
  simp only [Nat.zero_lt_succ, Nat.succ_lt_succ_iff, if_true, dif_pos l1]
  rw [e1, hf]

theorem find_names_freed {r : Root} {key : CStr} (hk : IsKey key)
    (hf : r (slot1 key) = Ref.freed) :
    find_names r (some key) = .error Fault.use_after_free := by
  unfold find_names
  rw [convert_of_isKey hk]
  simp only
  rw [find_name_freed hk hf]

theorem mem_enumerate {r : Root} {x : CStr} :
    x ∈ enumerate r ↔ ∃ i j k, x ∈ chain_at r i j k := by
  simp [enumerate, List.mem_flatMap, List.mem_finRange]

theorem live_of_mem_chain {r : Root} {i : Fin FIRST_LEVEL_SIZE} {j : Fin SECOND_LEVEL_SIZE}
    {k : Fin THIRD_LEVEL_SIZE} {x : CStr} (hx : x ∈ chain_at r i j k) :
    ∃ blocks, r i = Ref.live blocks := by
  cases hs : r i with
  | live g => exact ⟨g, rfl⟩
  | null => rw [chain_at_not_live (by rw [hs]; intro b hb; cases hb)] at hx; cases hx
  | freed => rw [chain_at_not_live (by rw [hs]; intro b hb; cases hb)] at hx; cases hx

/-- C10, as the code has it: in every state reachable by `add_name` calls,
`free_hash_blocks` returns after releasing every stored record once, in the
order of the traversal; a first-level slot that was absent stays absent, and a
slot that held a group keeps its pointer, now to released memory, and is not
set to absent; so the root equals the initial state only if it already did,
and `find_names` on a name stored before reads released memory and does not
report not found. -/
theorem teardown_releases (r : Root) (hr : Reachable r) :
    ∃ r1, free_hash_blocks r = .ok (enumerate r, r1) ∧
      (∀ i, r i = Ref.null → r1 i = Ref.null) ∧
      (∀ i blocks, r i = Ref.live blocks → r1 i = Ref.freed) ∧
      (r1 = first_level_init ↔ r = first_level_init) ∧
      (∀ key ∈ enumerate r, find_names r1 (some key) = .error Fault.use_after_free) := by
  obtain ⟨r1, h1, h2⟩ := free_hash_blocks_spec hr.noFreed
  refine ⟨r1, h1, ?_, ?_, ?_, ?_⟩
  · intro i hi; rw [h2 i, hi]; rfl
  · intro i g hi; rw [h2 i, hi]; rfl
  · constructor
    · intro h
      funext i
      have hi := h2 i
      rw [h] at hi
      cases hs : r i with
      | null => rfl
      | freed => exact absurd hs (hr.noFreed i)
      | live g => rw [hs] at hi; cases hi
    · intro h
      funext i
      rw [h2 i, h]; rfl
  · intro key hkey
    obtain ⟨i, j, k, hm⟩ := mem_enumerate.mp hkey
    obtain ⟨hk, rfl, -, -⟩ := stored_key hr hm
    obtain ⟨g, hg⟩ := live_of_mem_chain hm
    exact find_names_freed hk (by rw [h2, hg]; rfl)

/-- An instance of C10 as amended: teardown of the index holding ANN and ANNA. -/
theorem teardown_releases_witness :
    Reachable anna_ann ∧ enumerate anna_ann = [cstr "ANN", cstr "ANNA"] ∧
    ∃ r1, free_hash_blocks anna_ann = .ok (enumerate anna_ann, r1) ∧
      (∀ i, anna_ann i = Ref.null → r1 i = Ref.null) ∧
      (∀ i blocks, anna_ann i = Ref.live blocks → r1 i = Ref.freed) ∧
      (r1 = first_level_init ↔ anna_ann = first_level_init) ∧
      (∀ key ∈ enumerate anna_ann, find_names r1 (some key) = .error Fault.use_after_free) :=
  ⟨anna_ann_reachable, rfl, teardown_releases anna_ann anna_ann_reachable⟩

/-- C10 as stated fails: after `add_name("ANN")` on the empty index,
`free_hash_blocks` leaves slot `[A]` non-null (it points to the released
group), so the root is not the initial state, and `find_names("ANN")` reads
that released group and does not return 1. -/
theorem teardown_does_not_reset :
    ∃ r rel r1, add_names first_level_init [some (cstr "ANN")] = .ok r ∧
      free_hash_blocks r = .ok (rel, r1) ∧
      (r1 0).is_null = false ∧ r1 ≠ first_level_init ∧
      find_names r1 (some (cstr "ANN")) = .error Fault.use_after_free ∧
      find_names r1 (some (cstr "ANN")) ≠ .ok (1, r1) := by
  refine ⟨_, _, _, rfl, rfl, rfl, ?_, rfl, ?_⟩
  · intro h
    have h0 := congrFun h 0
    have hn : (first_level_init 0).is_null = true := rfl
    rw [← h0] at hn
    exact absurd hn (by decide)
  · intro h; cases h

theorem names_of_append (a b : List Line) : names_of (a ++ b) = names_of a ++ names_of b := by
  induction a with
  | nil => rfl
  | cons x xs ih => cases x <;> simp [names_of, ih]

theorem names_of_map_name (c : Chain) : names_of (c.map Line.name) = c := by
  induction c with
  | nil => rfl
  | cons x xs ih => simp [names_of, ih]

theorem names_of_flatMap {α : Type} (l : List α) (f : α → List Line) :
    names_of (l.flatMap f) = l.flatMap fun a => names_of (f a) := by
  induction l with
  | nil => rfl
  | cons x xs ih => simp [List.flatMap_cons, names_of_append, ih]

theorem names_of_print_block (block : HashBlock) :
    names_of (print_block block) =
      (List.finRange THIRD_LEVEL_SIZE).flatMap fun k => block.third_level k := by
  unfold print_block
  rw [names_of_flatMap]
  congr 1
  funext k
  split
  · next h => rw [h]; rfl
  · simp [names_of, names_of_map_name]

theorem names_of_print_blocks {r : Root} {i : Fin FIRST_LEVEL_SIZE} {blocks : HashBlocks}
    (h : r i = Ref.live blocks) :
    names_of (print_blocks blocks) =
      (List.finRange SECOND_LEVEL_SIZE).flatMap fun j =>
        (List.finRange THIRD_LEVEL_SIZE).flatMap fun k => chain_at r i j k := by
  unfold print_blocks
  rw [names_of_flatMap]
  congr 1
  funext j
  simp only [chain_at, h]
  cases blocks.second_level j with
  | none => simp [names_of]
  | some b => simp [names_of, names_of_print_block]

theorem print_loop_spec (r : Root) (hr : NoFreed r) (l : List (Fin FIRST_LEVEL_SIZE)) :
    ∃ out, print_loop r l = .ok out ∧
      names_of out = l.flatMap fun i => (List.finRange SECOND_LEVEL_SIZE).flatMap fun j =>
        (List.finRange THIRD_LEVEL_SIZE).flatMap fun k => chain_at r i j k := by
  induction l with
  | nil => exact ⟨[], rfl, rfl⟩
  | cons a l ih =>
    obtain ⟨out, h1, h2⟩ := ih
    cases hs : r a with
    | freed => exact absurd hs (hr a)
    | null =>
      refine ⟨out, by simp only [print_loop, hs, h1], ?_⟩
      have he : ((List.finRange SECOND_LEVEL_SIZE).flatMap fun j =>
          (List.finRange THIRD_LEVEL_SIZE).flatMap fun k => chain_at r a j k) = [] := by
        simp [chain_at_not_live (r := r) (i := a) (by rw [hs]; intro b hb; cases hb)]
      rw [List.flatMap_cons, he, h2, List.nil_append]
    | live g =>
      refine ⟨Line.first a.val :: print_blocks g ++ out, by simp only [print_loop, hs, h1], ?_⟩
      rw [List.flatMap_cons, ← h2, ← names_of_print_blocks hs]
      simp [names_of, names_of_append]

/-- What `print_hash_blocks` writes on an array with no released slot. -/
theorem print_hash_blocks_spec {r : Root} (hr : NoFreed r) :
    ∃ out, print_hash_blocks r = .ok out ∧ names_of out = enumerate r :=
  print_loop_spec r hr _

theorem perm_flatMap_one {α β : Type} (l : List α) (hl : l.Nodup) (a : α) (ha : a ∈ l)
    (f g : α → List β) (x : β) (hfg : ∀ b, b ≠ a → g b = f b) (hga : (g a).Perm (x :: f a)) :
    (l.flatMap g).Perm (x :: l.flatMap f) := by
  induction l with
  | nil => cases ha
  | cons b l ih =>
    have hbl : b ∉ l := (List.nodup_cons.mp hl).1
    have hl1 : l.Nodup := (List.nodup_cons.mp hl).2
    rw [List.flatMap_cons, List.flatMap_cons]
    by_cases hba : b = a
    · subst hba
      have hrest : l.flatMap g = l.flatMap f :=
        List.flatMap_congr (fun c hc => hfg c (fun e => hbl (e ▸ hc)))
      rw [hrest]
      exact List.Perm.append_right _ hga
    · have hal : a ∈ l := by
        rcases List.mem_cons.mp ha with e | h
        · exact absurd e.symm hba
        · exact h
      rw [hfg b hba]
      exact (List.Perm.append_left _ (ih hl1 hal)).trans List.perm_middle

theorem enumerate_put (r : Root) (i : Fin FIRST_LEVEL_SIZE) (j : Fin SECOND_LEVEL_SIZE)
    (k : Fin THIRD_LEVEL_SIZE) (key : CStr) :
    (enumerate (put r i j k key)).Perm (key :: enumerate r) := by
  unfold enumerate
  refine perm_flatMap_one _ (List.nodup_finRange _) i (List.mem_finRange i) _ _ key ?_ ?_
  · intro i1 hi
    refine List.flatMap_congr (fun j1 _ => List.flatMap_congr (fun k1 _ => ?_))
    rw [chain_at_put, if_neg (fun h => hi h.1)]
  · refine perm_flatMap_one _ (List.nodup_finRange _) j (List.mem_finRange j) _ _ key ?_ ?_
    · intro j1 hj
      refine List.flatMap_congr (fun k1 _ => ?_)
      rw [chain_at_put, if_neg (fun h => hj h.2.1)]
    · refine perm_flatMap_one _ (List.nodup_finRange _) k (List.mem_finRange k) _ _ key ?_ ?_
      · intro k1 hk
        rw [chain_at_put, if_neg (fun h => hk h.2.2)]
      · rw [chain_at_put, if_pos ⟨rfl, rfl, rfl⟩]
        exact insert_sorted_perm _ _

theorem enumerate_init : enumerate first_level_init = [] := by
  simp [enumerate, chain_at_init]

/-- The enumeration after a run of `add_name` calls with valid names: the
names already stored plus the keys of the names added. -/
theorem enumerate_add_names {r r1 : Root} (hr : NoFreed r) (names : List CStr)
    (hv : ∀ n ∈ names, 3 ≤ n.length ∧ ∀ c ∈ n, isalpha c = true)
    (h : add_names r (names.map some) = .ok r1) :
    (enumerate r1).Perm (names.map (List.map toupper) ++ enumerate r) := by
  induction names generalizing r with
  | nil => simp only [List.map_nil, add_names] at h; injection h with h; rw [h]; rfl
  | cons n ns ih =>
    have hn := hv n (List.mem_cons_self _ _)
    have hc := valid_convert hn.1 hn.2
    simp only [List.map_cons, add_names, add_name_ok hr hc] at h
    have h1 := ih (noFreed_put hr _ _ _ _) (fun m hm => hv m (List.mem_cons_of_mem _ hm)) h
    refine h1.trans ?_
    rw [List.map_cons, List.cons_append]
    exact (List.Perm.append_left _ (enumerate_put r _ _ _ _)).trans List.perm_middle

theorem key_first_byte {x : CStr} (hx : IsKey x) : x.getD 0 0 = 65 + (slot1 x).val := by
  obtain ⟨a, b, c, rest, rfl, ha, hb, hc⟩ := key_bytes hx
  simp only [slot1, List.getD_cons_zero, char_to_index_upper ha]
  omega

theorem key_third_byte {x : CStr} (hx : IsKey x) : x.getD 2 0 = 65 + (slot3 x).val := by
  obtain ⟨a, b, c, rest, rfl, ha, hb, hc⟩ := key_bytes hx
  simp only [slot3, List.getD_cons_zero, List.getD_cons_succ, char_to_index_upper hc]
  omega

theorem vowel_to_index_inj {a b : Nat} (h : vowel_to_index a = vowel_to_index b)
    (hlt : vowel_to_index a < 6) : a = b := by
  unfold vowel_to_index at h hlt
  split_ifs at h hlt <;> omega

theorem strcmp_third {x y : CStr} (hx : IsKey x) (hy : IsKey y)
    (h0 : x.getD 0 0 = y.getD 0 0) (h1 : x.getD 1 0 = y.getD 1 0)
    (h2 : x.getD 2 0 < y.getD 2 0) : strcmp x y < 0 := by
  obtain ⟨a, b, c, rest, rfl, -, -, -⟩ := key_bytes hx
  obtain ⟨a1, b1, c1, rest1, rfl, -, -, -⟩ := key_bytes hy
  simp only [List.getD_cons_zero, List.getD_cons_succ] at h0 h1 h2
  subst h0 h1
  have hne : ¬ c = c1 := by omega
  simp [strcmp, hne, h2]

theorem name_le_trans {a b c : CStr} (h1 : name_le a b) (h2 : name_le b c) : name_le a c :=
  strcmp_le_trans h1 h2

theorem name_le_antisymm {a b : CStr} (h1 : name_le a b) (h2 : name_le b a) : a = b := by
  unfold name_le at h1 h2
  rw [strcmp_swap a b] at h2
  exact (strcmp_eq_zero_iff a b).mp (by omega)

theorem chain_at_pairwise {r : Root} (hr : Reachable r) (i : Fin FIRST_LEVEL_SIZE)
    (j : Fin SECOND_LEVEL_SIZE) (k : Fin THIRD_LEVEL_SIZE) :
    List.Pairwise name_le (chain_at r i j k) := by
  haveI : IsTrans CStr name_le := ⟨fun _ _ _ => name_le_trans⟩
  exact List.chain'_iff_pairwise.mp (chain_at_sorted hr i j k)

/-- The names of one block, third-level slots in index order, are in order
whenever the names of the block agree on their second byte. -/
theorem block_sorted {r : Root} (hr : Reachable r) (i : Fin FIRST_LEVEL_SIZE)
    (j : Fin SECOND_LEVEL_SIZE)
    (h : ∀ k k1 x y, x ∈ chain_at r i j k → y ∈ chain_at r i j k1 → x.getD 1 0 = y.getD 1 0) :
    List.Pairwise name_le
      ((List.finRange THIRD_LEVEL_SIZE).flatMap fun k => chain_at r i j k) := by
  rw [List.pairwise_flatMap]
  refine ⟨fun k _ => chain_at_pairwise hr i j k, ?_⟩
  refine (List.pairwise_lt_finRange THIRD_LEVEL_SIZE).imp ?_
  intro k k1 hlt x hx y hy
  obtain ⟨kx, sx1, -, sx3⟩ := stored_key hr hx
  obtain ⟨ky, sy1, -, sy3⟩ := stored_key hr hy
  have h0 : x.getD 0 0 = y.getD 0 0 := by rw [key_first_byte kx, key_first_byte ky, sx1, sy1]
  have h2 : x.getD 2 0 < y.getD 2 0 := by
    rw [key_third_byte kx, key_third_byte ky, sx3, sy3]
    have : k.val < k1.val := hlt
    omega
  exact Int.le_of_lt (strcmp_third kx ky h0 (h k k1 x y hx hy) h2)

/-- The whole enumeration is in order when all stored names agree on their
first two bytes. -/
theorem enumerate_sorted {r : Root} (hr : Reachable r) (c1 c2 : Nat)
    (h : ∀ x ∈ enumerate r, x.getD 0 0 = c1 ∧ x.getD 1 0 = c2) :
    List.Pairwise name_le (enumerate r) := by
  have hm : ∀ {i j k x}, x ∈ chain_at r i j k → x.getD 0 0 = c1 ∧ x.getD 1 0 = c2 :=
    fun hx => h _ (mem_enumerate.mpr ⟨_, _, _, hx⟩)
  unfold enumerate
  rw [List.pairwise_flatMap]
  constructor
  · intro i _
    rw [List.pairwise_flatMap]
    constructor
    · intro j _
      exact block_sorted hr i j (fun k k1 x y hx hy => by rw [(hm hx).2, (hm hy).2])
    · refine (List.pairwise_lt_finRange SECOND_LEVEL_SIZE).imp ?_
      intro j j1 hlt x hx y hy
      exfalso
      obtain ⟨k, -, hxk⟩ := List.mem_flatMap.mp hx
      obtain ⟨k1, -, hyk⟩ := List.mem_flatMap.mp hy
      have sx := (stored_key hr hxk).2.2.1
      have sy := (stored_key hr hyk).2.2.1
      have e : slot2 x = slot2 y := by
        simp only [slot2, (hm hxk).2, (hm hyk).2]
      rw [sx, sy] at e
      exact absurd e (ne_of_lt hlt)
  · refine (List.pairwise_lt_finRange FIRST_LEVEL_SIZE).imp ?_
    intro i i1 hlt x hx y hy
    exfalso
    obtain ⟨j, -, hxj⟩ := List.mem_flatMap.mp hx
    obtain ⟨k, -, hxk⟩ := List.mem_flatMap.mp hxj
    obtain ⟨j1, -, hyj⟩ := List.mem_flatMap.mp hy
    obtain ⟨k1, -, hyk⟩ := List.mem_flatMap.mp hyj
    have sx := (stored_key hr hxk).2.1
    have sy := (stored_key hr hyk).2.1
    have e : slot1 x = slot1 y := by
      simp only [slot1, (hm hxk).1, (hm hyk).1]
    rw [sx, sy] at e
    exact absurd e (ne_of_lt hlt)

theorem getD_map_toupper {n : CStr} {i : Nat} (hi : i < n.length) :
    (n.map toupper).getD i 0 = toupper (n.getD i 0) := by
  rw [List.getD_eq_getElem _ _ (by simpa using hi), List.getD_eq_getElem _ _ hi, List.getElem_map]

/-- The enumeration of the index built from the empty one out of valid names
that agree, once uppercased, on their first two letters. -/
theorem enumeration_from_empty (names : List CStr) (c1 c2 : Nat)
    (hnames : ∀ n ∈ names, 3 ≤ n.length ∧ (∀ c ∈ n, isalpha c = true) ∧
      toupper (n.getD 0 0) = c1 ∧ toupper (n.getD 1 0) = c2) :
    ∃ r out, add_names first_level_init (names.map some) = .ok r ∧
      print_hash_blocks r = .ok out ∧
      (names_of out).Perm (names.map (List.map toupper)) ∧
      List.Pairwise name_le (names_of out) := by
  obtain ⟨r, hr, hn⟩ := add_names_total noFreed_init (names.map some)
  obtain ⟨out, ho, hnames_of⟩ := print_hash_blocks_spec hn
  have hperm := enumerate_add_names noFreed_init names (fun n h => ⟨(hnames n h).1, (hnames n h).2.1⟩) hr
  rw [enumerate_init, List.append_nil] at hperm
  refine ⟨r, out, hr, ho, hnames_of ▸ hperm, ?_⟩
  rw [hnames_of]
  refine enumerate_sorted (Reachable.add_names Reachable.init hr) c1 c2 ?_
  intro x hx
  obtain ⟨n, hn1, rfl⟩ := List.mem_map.mp (hperm.mem_iff.mp hx)
  obtain ⟨hl, -, h1, h2⟩ := hnames n hn1
  exact ⟨by rw [getD_map_toupper (by omega), h1], by rw [getD_map_toupper (by omega), h2]⟩

/-- The names of a block of one of the six vowel classes, in any reachable state. -/
theorem vowel_block_sorted {r : Root} (hr : Reachable r) {i : Fin FIRST_LEVEL_SIZE}
    {j : Fin SECOND_LEVEL_SIZE} {blocks : HashBlocks} {block : HashBlock}
    (hi : r i = Ref.live blocks) (hj : blocks.second_level j = some block) (hlt : j.val < 6) :
    List.Pairwise name_le (names_of (print_block block)) := by
  rw [names_of_print_block]
  have he : (fun k => block.third_level k) = fun k => chain_at r i j k := by
    funext k; rw [chain_at_live hi hj k]
  rw [he]
  refine block_sorted hr i j ?_
  intro k k1 x y hx hy
  obtain ⟨kx, -, sx, -⟩ := stored_key hr hx
  obtain ⟨ky, -, sy, -⟩ := stored_key hr hy
  have vx := (slot_vals kx).2.1
  have vy := (slot_vals ky).2.1
  rw [sx] at vx
  rw [sy] at vy
  exact vowel_to_index_inj (by rw [← vx, ← vy]) (by rw [← vx]; exact hlt)

/-- C8: valid names that share their first letter and their second letter, one
of A, E, I, O, U, Y, inserted in any order into the empty index, are listed by
`print_hash_blocks` in ascending order of `strcmp` (strictly ascending when
their keys differ); in any reachable state the names of a block of a vowel
class are listed in that order; and BOB, BOZ, BOA, inserted in any order, are
listed as BOA, BOB, BOZ. -/
theorem enumeration_in_order (names : List CStr) (c1 c2 : Nat)
    (_hv : c2 = 65 ∨ c2 = 69 ∨ c2 = 73 ∨ c2 = 79 ∨ c2 = 85 ∨ c2 = 89)
    (hnames : ∀ n ∈ names, 3 ≤ n.length ∧ (∀ c ∈ n, isalpha c = true) ∧
      toupper (n.getD 0 0) = c1 ∧ toupper (n.getD 1 0) = c2) :
    (∃ r out, add_names first_level_init (names.map some) = .ok r ∧
      print_hash_blocks r = .ok out ∧
      (names_of out).Perm (names.map (List.map toupper)) ∧
      List.Pairwise (fun a b => strcmp a b ≤ 0) (names_of out) ∧
      ((names.map (List.map toupper)).Nodup →
        List.Pairwise (fun a b => strcmp a b < 0) (names_of out))) ∧
    (∀ r, Reachable r → ∀ (i : Fin FIRST_LEVEL_SIZE) (j : Fin SECOND_LEVEL_SIZE)
        (blocks : HashBlocks) (block : HashBlock),
      r i = Ref.live blocks → blocks.second_level j = some block → j.val < 6 →
        List.Pairwise (fun a b => strcmp a b ≤ 0) (names_of (print_block block))) ∧
    (∀ l : List CStr, l.Perm [cstr "BOB", cstr "BOZ", cstr "BOA"] →
      ∃ r out, add_names first_level_init (l.map some) = .ok r ∧
        print_hash_blocks r = .ok out ∧
        names_of out = [cstr "BOA", cstr "BOB", cstr "BOZ"]) := by
  refine ⟨?_, ?_, ?_⟩
  · obtain ⟨r, out, h1, h2, h3, h4⟩ := enumeration_from_empty names c1 c2 hnames
    refine ⟨r, out, h1, h2, h3, h4, ?_⟩
    intro hnd
    have hnd1 : (names_of out).Nodup := (h3.nodup_iff).mpr hnd
    refine (h4.and hnd1).imp ?_
    intro a b hab
    have hle : strcmp a b ≤ 0 := hab.1
    have hne : strcmp a b ≠ 0 := fun e => hab.2 ((strcmp_eq_zero_iff a b).mp e)
    omega
  · intro r hr i j blocks block hi hj hlt
    exact vowel_block_sorted hr hi hj hlt
  · intro l hl
    have hmem : ∀ n ∈ l, 3 ≤ n.length ∧ (∀ c ∈ n, isalpha c = true) ∧
        toupper (n.getD 0 0) = 66 ∧ toupper (n.getD 1 0) = 79 := by
      intro n hn
      have := hl.mem_iff.mp hn
      simp only [List.mem_cons, List.mem_singleton, List.not_mem_nil, or_false] at this
      rcases this with rfl | rfl | rfl <;> decide
    obtain ⟨r, out, h1, h2, h3, h4⟩ := enumeration_from_empty l 66 79 hmem
    refine ⟨r, out, h1, h2, ?_⟩
    haveI : IsAntisymm CStr name_le := ⟨fun _ _ => name_le_antisymm⟩
    have hp : (names_of out).Perm [cstr "BOA", cstr "BOB", cstr "BOZ"] := by
      refine h3.trans ((hl.map _).trans ?_)
      decide
    refine List.eq_of_perm_of_sorted hp h4 ?_
    unfold List.Sorted name_le
    decide

/-- An instance of C8: Boz, bob, BOA. -/
theorem enumeration_in_order_witness :
    (∀ n ∈ [cstr "Boz", cstr "bob", cstr "BOA"], 3 ≤ n.length ∧ (∀ c ∈ n, isalpha c = true) ∧
      toupper (n.getD 0 0) = 66 ∧ toupper (n.getD 1 0) = 79) ∧
    ∃ r out, add_names first_level_init
        ([cstr "Boz", cstr "bob", cstr "BOA"].map some) = .ok r ∧
      print_hash_blocks r = .ok out ∧
      (names_of out).Perm ([cstr "Boz", cstr "bob", cstr "BOA"].map (List.map toupper)) ∧
      List.Pairwise (fun a b => strcmp a b ≤ 0) (names_of out) ∧
      (([cstr "Boz", cstr "bob", cstr "BOA"].map (List.map toupper)).Nodup →
        List.Pairwise (fun a b => strcmp a b < 0) (names_of out)) :=
  ⟨by decide,
    (enumeration_in_order [cstr "Boz", cstr "bob", cstr "BOA"] 66 79
      (Or.inr (Or.inr (Or.inr (Or.inl rfl)))) (by decide)).1⟩

/-- What `add_name` does with a valid name when the slot of its first letter
points to released memory. -/
theorem add_name_freed {r : Root} {n : Option CStr} {key : CStr}
    (hc : convert_to_upper n = .ok key) (hf : r (slot1 key) = Ref.freed) :
    add_name r n = .error Fault.use_after_free := by
  have hk := convert_isKey hc
  obtain ⟨h1, h2, h3⟩ := slot_vals hk
  obtain ⟨a, b, c, rest, rfl, ha, hb, hcc⟩ := key_bytes hk
  simp only [List.getD_cons_zero, List.getD_cons_succ] at h1 h2 h3
  have l1 : char_to_index a < FIRST_LEVEL_SIZE := h1 ▸ (slot1 _).isLt
  have e1 : (⟨_, l1⟩ : Fin FIRST_LEVEL_SIZE) = slot1 (a :: b :: c :: rest) := Fin.ext h1.symm
  unfold add_name
  rw [hc]
  simp only [char_at, List.length_cons, List.getD_cons_zero, List.getD_cons_succ]
  simp only [Nat.zero_lt_succ, Nat.succ_lt_succ_iff, if_true, dif_pos l1]
  rw [e1, hf]

/-- What `add_name` does with a valid name when the slot of its first letter
does not point to released memory. -/
theorem add_name_slot {r : Root} {n : Option CStr} {key : CStr}
    (hc : convert_to_upper n = .ok key) (hf : r (slot1 key) ≠ Ref.freed) :
    add_name r n = .ok (0, put r (slot1 key) (slot2 key) (slot3 key) key) := by
  have hk := convert_isKey hc
  obtain ⟨h1, h2, h3⟩ := slot_vals hk
  obtain ⟨a, b, c, rest, rfl, ha, hb, hcc⟩ := key_bytes hk
  simp only [List.getD_cons_zero, List.getD_cons_succ] at h1 h2 h3
  have l1 : char_to_index a < FIRST_LEVEL_SIZE := h1 ▸ (slot1 _).isLt
  have l2 : vowel_to_index b < SECOND_LEVEL_SIZE := h2 ▸ (slot2 _).isLt
  have l3 : char_to_index c < THIRD_LEVEL_SIZE := h3 ▸ (slot3 _).isLt
  have e1 : (⟨_, l1⟩ : Fin FIRST_LEVEL_SIZE) = slot1 (a :: b :: c :: rest) := Fin.ext h1.symm
  have e2 : (⟨_, l2⟩ : Fin SECOND_LEVEL_SIZE) = slot2 (a :: b :: c :: rest) := Fin.ext h2.symm
  have e3 : (⟨_, l3⟩ : Fin THIRD_LEVEL_SIZE) = slot3 (a :: b :: c :: rest) := Fin.ext h3.symm
  unfold add_name
  rw [hc]
  simp only [char_at, List.length_cons, List.getD_cons_zero, List.getD_cons_succ]
  simp only [Nat.zero_lt_succ, Nat.succ_lt_succ_iff, if_true, dif_pos l1, dif_pos l2, dif_pos l3]
  rw [e1, e2, e3]
  unfold put
  cases hs : r (slot1 (a :: b :: c :: rest)) with
  | freed => exact absurd hs hf
  | null =>
    simp only [blocks_of, head_update_eq]
    rfl
  | live g =>
    simp only [blocks_of, head_update_eq]
    cases hb : g.second_level (slot2 (a :: b :: c :: rest)) <;> simp only [block_of]

/-- What `find_name` does with a key when the slot of its first letter does
not point to released memory. -/
theorem find_name_slot {r : Root} {key : CStr} (hk : IsKey key)
    (hf : r (slot1 key) ≠ Ref.freed) :
    find_name r key =
      .ok (find_name_loop (chain_at r (slot1 key) (slot2 key) (slot3 key)) key) := by
  obtain ⟨h1, h2, h3⟩ := slot_vals hk
  obtain ⟨a, b, c, rest, rfl, ha, hb, hcc⟩ := key_bytes hk
  simp only [List.getD_cons_zero, List.getD_cons_succ] at h1 h2 h3
  have l1 : char_to_index a < FIRST_LEVEL_SIZE := h1 ▸ (slot1 _).isLt
  have l2 : vowel_to_index b < SECOND_LEVEL_SIZE := h2 ▸ (slot2 _).isLt
  have l3 : char_to_index c < THIRD_LEVEL_SIZE := h3 ▸ (slot3 _).isLt
  have e1 : (⟨_, l1⟩ : Fin FIRST_LEVEL_SIZE) = slot1 (a :: b :: c :: rest) := Fin.ext h1.symm
  have e2 : (⟨_, l2⟩ : Fin SECOND_LEVEL_SIZE) = slot2 (a :: b :: c :: rest) := Fin.ext h2.symm
  have e3 : (⟨_, l3⟩ : Fin THIRD_LEVEL_SIZE) = slot3 (a :: b :: c :: rest) := Fin.ext h3.symm
  unfold find_name
  simp only [char_at, List.length_cons, List.getD_cons_zero, List.getD_cons_succ]
  simp only [Nat.zero_lt_succ, Nat.succ_lt_succ_iff, if_true, dif_pos l1, dif_pos l2, dif_pos l3]
  rw [e1, e2, e3]
  unfold chain_at
  cases hs : r (slot1 (a :: b :: c :: rest)) with
  | freed => exact absurd hs hf
  | null => rfl
  | live g =>
    simp only
    cases g.second_level (slot2 (a :: b :: c :: rest)) <;> rfl

theorem find_names_root {r r1 : Root} {input : Option CStr} {rc : Int}
    (h : find_names r input = .ok (rc, r1)) : r1 = r := by
  unfold find_names at h
  split at h
  · injection h with h; injection h with _ h2; exact h2.symm
  · split at h
    · cases h
    · injection h with h; injection h with _ h2; exact h2.symm
    · injection h with h; injection h with _ h2; exact h2.symm

theorem find_names_total {r : Root} (hr : NoFreed r) (input : Option CStr) :
    find_names r input = .ok (0, r) ∨ find_names r input = .ok (1, r) := by
  cases hc : convert_to_upper input with
  | error d => exact Or.inr (find_names_rejected r hc)
  | ok key =>
    by_cases hm : key ∈ chain_at r (slot1 key) (slot2 key) (slot3 key)
    · exact Or.inl ((find_names_ok hr hc).1 hm)
    · exact Or.inr ((find_names_ok hr hc).2 hm)

/-- C12: `find_names` hands the array back exactly as it received it, whatever
the input and the state: every first-level slot, and so every group, block and
chain under it, is the one it was; on a state with no released slot it always
returns, and a lookup that finds the first-level slot or the block of the key
absent leaves that slot absent. `find_name` only reads the array. -/
theorem lookup_read_only (r : Root) (input : Option CStr) :
    (∀ rc r1, find_names r input = .ok (rc, r1) →
      r1 = r ∧ (∀ i, r1 i = r i) ∧ (∀ i j k, chain_at r1 i j k = chain_at r i j k)) ∧
    (NoFreed r → find_names r input = .ok (0, r) ∨ find_names r input = .ok (1, r)) ∧
    (∀ key, convert_to_upper input = .ok key → r (slot1 key) = Ref.null →
      find_name r key = .ok [] ∧ find_names r input = .ok (1, r)) ∧
    (∀ key blocks, convert_to_upper input = .ok key → r (slot1 key) = Ref.live blocks →
      blocks.second_level (slot2 key) = none →
      find_name r key = .ok [] ∧ find_names r input = .ok (1, r)) := by
  refine ⟨?_, fun hr => find_names_total hr input, ?_, ?_⟩
  · intro rc r1 h
    have e := find_names_root h
    subst e
    exact ⟨rfl, fun _ => rfl, fun _ _ _ => rfl⟩
  · intro key hc hnull
    have hk := convert_isKey hc
    have hf : r (slot1 key) ≠ Ref.freed := by rw [hnull]; intro h; cases h
    have hch : chain_at r (slot1 key) (slot2 key) (slot3 key) = [] := by
      simp only [chain_at, hnull]
    have hfn : find_name r key = .ok [] := by
      rw [find_name_slot hk hf, hch]; rfl
    refine ⟨hfn, ?_⟩
    unfold find_names
    rw [hc]; simp only
    rw [hfn]
  · intro key blocks hc hlive hnone
    have hk := convert_isKey hc
    have hf : r (slot1 key) ≠ Ref.freed := by rw [hlive]; intro h; cases h
    have hch : chain_at r (slot1 key) (slot2 key) (slot3 key) = [] := by
      simp only [chain_at, hlive, hnone]
    have hfn : find_name r key = .ok [] := by
      rw [find_name_slot hk hf, hch]; rfl
    refine ⟨hfn, ?_⟩
    unfold find_names
    rw [hc]; simp only
    rw [hfn]

theorem char_at_key {key : CStr} (hk : IsKey key) :
    char_at key 0 = .ok (key.getD 0 0) ∧ char_at key 1 = .ok (key.getD 1 0) ∧
    char_at key 2 = .ok (key.getD 2 0) := by
  obtain ⟨a, b, c, rest, rfl, -, -, -⟩ := key_bytes hk
  simp [char_at]

/-- C18: whenever `convert_to_upper` succeeds with result `key`, the three
reads `key[0]`, `key[1]`, `key[2]` stay inside the string,
`char_to_index(key[0])` is below 26, `vowel_to_index(key[1])` is below 7 and
`char_to_index(key[2])` is below 26, so neither `add_name` nor `find_name`
indexes `first_level`, `second_level` or `third_level` out of range. -/
theorem indices_in_bounds (input : Option CStr) (key : CStr)
    (h : convert_to_upper input = .ok key) :
    char_at key 0 = .ok (key.getD 0 0) ∧ char_at key 1 = .ok (key.getD 1 0) ∧
    char_at key 2 = .ok (key.getD 2 0) ∧
    char_to_index (key.getD 0 0) < FIRST_LEVEL_SIZE ∧
    vowel_to_index (key.getD 1 0) < SECOND_LEVEL_SIZE ∧
    char_to_index (key.getD 2 0) < THIRD_LEVEL_SIZE ∧
    (∀ r : Root, add_name r input ≠ .error Fault.out_of_bounds ∧
      find_name r key ≠ .error Fault.out_of_bounds ∧
      find_names r input ≠ .error Fault.out_of_bounds) := by
  have hk := convert_isKey h
  obtain ⟨h1, h2, h3⟩ := slot_vals hk
  obtain ⟨c0, c1, c2⟩ := char_at_key hk
  refine ⟨c0, c1, c2, h1 ▸ (slot1 key).isLt, h2 ▸ (slot2 key).isLt, h3 ▸ (slot3 key).isLt, ?_⟩
  intro r
  by_cases hf : r (slot1 key) = Ref.freed
  · have hfn := find_name_freed hk hf
    refine ⟨?_, ?_, ?_⟩
    · rw [add_name_freed h hf]; intro e; cases e
    · rw [hfn]; intro e; cases e
    · unfold find_names
      rw [h]; simp only
      rw [hfn]; intro e; cases e
  · have hfn := find_name_slot hk hf
    refine ⟨?_, ?_, ?_⟩
    · rw [add_name_slot h hf]; intro e; cases e
    · rw [hfn]; intro e; cases e
    · unfold find_names
      rw [h]; simp only
      rw [hfn]
      generalize find_name_loop (chain_at r (slot1 key) (slot2 key) (slot3 key)) key = found
      cases found <;> intro e <;> cases e

/-- An instance of C18: the key of Zephyr. -/
theorem indices_in_bounds_witness :
    convert_to_upper (some (cstr "Zephyr")) = .ok (cstr "ZEPHYR") ∧
    char_to_index ((cstr "ZEPHYR").getD 0 0) = 25 ∧
    vowel_to_index ((cstr "ZEPHYR").getD 1 0) = 1 ∧
    char_to_index ((cstr "ZEPHYR").getD 2 0) = 15 ∧
    char_to_index ((cstr "ZEPHYR").getD 0 0) < FIRST_LEVEL_SIZE ∧
    vowel_to_index ((cstr "ZEPHYR").getD 1 0) < SECOND_LEVEL_SIZE ∧
    char_to_index ((cstr "ZEPHYR").getD 2 0) < THIRD_LEVEL_SIZE :=
  ⟨rfl, by decide, by decide, by decide,
    (indices_in_bounds (some (cstr "Zephyr")) (cstr "ZEPHYR") rfl).2.2.2.1,
    (indices_in_bounds (some (cstr "Zephyr")) (cstr "ZEPHYR") rfl).2.2.2.2.1,
    (indices_in_bounds (some (cstr "Zephyr")) (cstr "ZEPHYR") rfl).2.2.2.2.2.1⟩

/-- C19: in every state reachable from the empty index by `add_name` calls, a
record stored in the chain at first-level slot `i`, second-level slot `j` and
third-level slot `k` has a key of at least 3 bytes, all in `'A'..'Z'`, whose
first byte is `'A' + i`, whose second byte has vowel class `j` and whose third
byte is `'A' + k`. -/
theorem bucket_placement (r : Root) (hr : Reachable r) (i : Fin FIRST_LEVEL_SIZE)
    (j : Fin SECOND_LEVEL_SIZE) (k : Fin THIRD_LEVEL_SIZE) (blocks : HashBlocks)
    (block : HashBlock) (x : CStr) (hi : r i = Ref.live blocks)
    (hj : blocks.second_level j = some block) (hx : x ∈ block.third_level k) :
    3 ≤ x.length ∧ (∀ c ∈ x, 65 ≤ c ∧ c ≤ 90) ∧ x.getD 0 0 = 65 + i.val ∧
    vowel_to_index (x.getD 1 0) = j.val ∧ x.getD 2 0 = 65 + k.val := by
  rw [← chain_at_live hi hj k] at hx
  obtain ⟨hk, s1, s2, s3⟩ := stored_key hr hx
  refine ⟨hk.1, hk.2, ?_, ?_, ?_⟩
  · rw [key_first_byte hk, s1]
  · rw [← (slot_vals hk).2.1, s2]
  · rw [key_third_byte hk, s3]

/-- An instance of C19: ANN in the index that holds ANN and ANNA. -/
theorem bucket_placement_witness :
    cstr "ANN" ∈ (block_of ((blocks_of (anna_ann 0)).second_level 6)).third_level 13 ∧
    3 ≤ (cstr "ANN").length ∧ (∀ c ∈ cstr "ANN", 65 ≤ c ∧ c ≤ 90) ∧
    (cstr "ANN").getD 0 0 = 65 + (0 : Fin FIRST_LEVEL_SIZE).val ∧
    vowel_to_index ((cstr "ANN").getD 1 0) = (6 : Fin SECOND_LEVEL_SIZE).val ∧
    (cstr "ANN").getD 2 0 = 65 + (13 : Fin THIRD_LEVEL_SIZE).val :=
  ⟨by decide,
    bucket_placement anna_ann anna_ann_reachable 0 6 13 (blocks_of (anna_ann 0))
      (block_of ((blocks_of (anna_ann 0)).second_level 6)) (cstr "ANN") rfl rfl (by decide)⟩

theorem insert_sorted_ne_nil (c : Chain) (key : CStr) : insert_sorted c key ≠ [] := by
  intro h
  have := (insert_sorted_perm c key).length_eq
  rw [h] at this
  simp at this

theorem insert_after_sublist (c : Chain) (key : CStr) : c.Sublist (insert_after c key) := by
  induction c with
  | nil => exact List.nil_sublist _
  | cons x xs ih =>
    unfold insert_after
    split
    · exact ih.cons₂ x
    · exact List.sublist_cons_self key (x :: xs)

theorem insert_sorted_sublist (c : Chain) (key : CStr) : c.Sublist (insert_sorted c key) := by
  cases c with
  | nil => exact List.nil_sublist _
  | cons x xs =>
    unfold insert_sorted
    simp only
    split
    · exact List.sublist_cons_self key (x :: xs)
    · exact (insert_after_sublist xs key).cons₂ x

theorem put_self (r : Root) (i : Fin FIRST_LEVEL_SIZE) (j : Fin SECOND_LEVEL_SIZE)
    (k : Fin THIRD_LEVEL_SIZE) (key : CStr) :
    ∃ g1 b1, put r i j k key i = Ref.live g1 ∧ g1.second_level j = some b1 ∧
      b1.third_level k = insert_sorted (chain_at r i j k) key ∧
      (∀ j1, j1 ≠ j → g1.second_level j1 = (blocks_of (r i)).second_level j1) ∧
      (∀ k1, k1 ≠ k →
        b1.third_level k1 = (block_of ((blocks_of (r i)).second_level j)).third_level k1) := by
  refine ⟨_, _, by unfold put; exact Function.update_same _ _ _, Function.update_same _ _ _, ?_,
    ?_, ?_⟩
  · simp only [Function.update_same, chain_at_blocks]
  · intro j1 hj; exact Function.update_noteq hj _ _
  · intro k1 hk; exact Function.update_noteq hk _ _

theorem put_other (r : Root) {i i1 : Fin FIRST_LEVEL_SIZE} (j : Fin SECOND_LEVEL_SIZE)
    (k : Fin THIRD_LEVEL_SIZE) (key : CStr) (h : i1 ≠ i) : put r i j k key i1 = r i1 := by
  unfold put; exact Function.update_noteq h _ _

theorem blocks_of_some {s : Ref} {j : Fin SECOND_LEVEL_SIZE} {b : HashBlock}
    (h : (blocks_of s).second_level j = some b) : s = Ref.live (blocks_of s) := by
  cases s with
  | live g => rfl
  | null => simp [blocks_of, create_hash_blocks] at h
  | freed => simp [blocks_of, create_hash_blocks] at h

/-- Every group holds a block and every block holds a record. -/
theorem populated {r : Root} (hr : Reachable r) :
    (∀ i blocks, r i = Ref.live blocks → ∃ j block, blocks.second_level j = some block) ∧
    (∀ i blocks j block, r i = Ref.live blocks → blocks.second_level j = some block →
      ∃ k, block.third_level k ≠ []) := by
  induction hr with
  | init => exact ⟨fun i g h => (by cases h), fun i g j b h _ => (by cases h)⟩
  | @step r r1 n rc hr hadd ih =>
    rcases add_name_cases hr.noFreed hadd with ⟨-, rfl, -⟩ | ⟨-, key, -, rfl⟩
    · exact ih
    · obtain ⟨g1, b1, hg1, hb1, hk1, hj1, -⟩ := put_self r (slot1 key) (slot2 key) (slot3 key) key
      constructor
      · intro i g hi
        by_cases hii : i = slot1 key
        · subst hii
          rw [hg1] at hi
          injection hi with hi
          subst hi
          exact ⟨_, _, hb1⟩
        · rw [put_other r _ _ _ hii] at hi
          exact ih.1 i g hi
      · intro i g j b hi hj
        by_cases hii : i = slot1 key
        · subst hii
          rw [hg1] at hi
          injection hi with hi
          subst hi
          by_cases hjj : j = slot2 key
          · subst hjj
            rw [hb1] at hj
            injection hj with hj
            subst hj
            exact ⟨slot3 key, by rw [hk1]; exact insert_sorted_ne_nil _ _⟩
          · rw [hj1 j hjj] at hj
            exact ih.2 _ _ j b (blocks_of_some hj) hj
        · rw [put_other r _ _ _ hii] at hi
          exact ih.2 i g j b hi hj

/-- C20: in every state reachable from the empty index by completed `add_name`
calls, every present first-level entry holds at least one present block and
every present block holds at least one non-empty chain; an `add_name` call
that fails validation returns the index as it was, so it creates nothing. -/
theorem no_empty_containers (r : Root) (hr : Reachable r) :
    (∀ i blocks, r i = Ref.live blocks → ∃ j block, blocks.second_level j = some block) ∧
    (∀ i blocks j block, r i = Ref.live blocks → blocks.second_level j = some block →
      ∃ k, block.third_level k ≠ []) ∧
    (∀ input d, convert_to_upper input = .error d → add_name r input = .ok (1, r)) :=
  ⟨(populated hr).1, (populated hr).2, fun _ _ hd => add_name_rejected r hd⟩

/-- An instance of C20: the index that holds ANN and ANNA. -/
theorem no_empty_containers_witness :
    anna_ann 0 = Ref.live (blocks_of (anna_ann 0)) ∧
    (∃ j block, (blocks_of (anna_ann 0)).second_level j = some block) ∧
    (∃ k, (block_of ((blocks_of (anna_ann 0)).second_level 6)).third_level k ≠ []) ∧
    add_name anna_ann (some (cstr "X1")) = .ok (1, anna_ann) :=
  ⟨rfl,
    (no_empty_containers anna_ann anna_ann_reachable).1 0 (blocks_of (anna_ann 0)) rfl,
    (no_empty_containers anna_ann anna_ann_reachable).2.1 0 (blocks_of (anna_ann 0)) 6
      (block_of ((blocks_of (anna_ann 0)).second_level 6)) rfl rfl,
    (no_empty_containers anna_ann anna_ann_reachable).2.2 (some (cstr "X1")) Diag.too_short rfl⟩

/-- C17: in every reachable state, `add_name` on a valid name leaves every
chain other than the one its key selects as it was, keeps every present
first-level and second-level entry present, and keeps the records that were in
the selected chain, in their order; so every name `find_names` found before
the call it finds after it. -/
theorem insert_extends_one_chain (r : Root) (n : CStr) (hr : Reachable r)
    (hlen : 3 ≤ n.length) (halpha : ∀ c ∈ n, isalpha c = true) :
    ∃ r1, add_name r (some n) = .ok (0, r1) ∧
      (∀ i j k, ¬ (i = slot1 (n.map toupper) ∧ j = slot2 (n.map toupper) ∧
          k = slot3 (n.map toupper)) → chain_at r1 i j k = chain_at r i j k) ∧
      (∀ i, i ≠ slot1 (n.map toupper) → r1 i = r i) ∧
      (∀ i blocks, r i = Ref.live blocks →
        ∃ blocks1, r1 i = Ref.live blocks1 ∧
          ∀ j, blocks.second_level j ≠ none → blocks1.second_level j ≠ none) ∧
      (chain_at r (slot1 (n.map toupper)) (slot2 (n.map toupper))
          (slot3 (n.map toupper))).Sublist
        (chain_at r1 (slot1 (n.map toupper)) (slot2 (n.map toupper))
          (slot3 (n.map toupper))) ∧
      (∀ m, find_names r m = .ok (0, r) → find_names r1 m = .ok (0, r1)) := by
  have hc := valid_convert hlen halpha
  have hn1 := noFreed_put hr.noFreed (slot1 (n.map toupper)) (slot2 (n.map toupper))
    (slot3 (n.map toupper)) (n.map toupper)
  refine ⟨_, add_name_ok hr.noFreed hc, ?_, ?_, ?_, ?_, ?_⟩
  · intro i j k hne
    rw [chain_at_put, if_neg hne]
  · intro i hi
    exact put_other r _ _ _ hi
  · intro i g hi
    obtain ⟨g1, b1, hg1, hb1, -, hj1, -⟩ :=
      put_self r (slot1 (n.map toupper)) (slot2 (n.map toupper)) (slot3 (n.map toupper))
        (n.map toupper)
    by_cases hii : i = slot1 (n.map toupper)
    · subst hii
      refine ⟨g1, hg1, ?_⟩
      intro j hj
      by_cases hjj : j = slot2 (n.map toupper)
      · subst hjj; rw [hb1]; intro e; cases e
      · rw [hj1 j hjj, hi]; exact hj
    · exact ⟨g, by rw [put_other r _ _ _ hii]; exact hi, fun j hj => hj⟩
  · rw [chain_at_put, if_pos ⟨rfl, rfl, rfl⟩]
    exact insert_sorted_sublist _ _
  · intro m hm
    obtain ⟨key, hkc, hmem⟩ := find_names_zero hr.noFreed hm
    exact (find_names_ok hn1 hkc).1 (mem_chain_put hmem)

/-- An instance of C17: Ann added to the index that holds ANN and ANNA. -/
theorem insert_extends_one_chain_witness :
    Reachable anna_ann ∧ 3 ≤ (cstr "Ann").length ∧ (∀ c ∈ cstr "Ann", isalpha c = true) ∧
    find_names anna_ann (some (cstr "Anna")) = .ok (0, anna_ann) ∧
    ∃ r1, add_name anna_ann (some (cstr "Ann")) = .ok (0, r1) ∧
      (chain_at anna_ann (slot1 ((cstr "Ann").map toupper)) (slot2 ((cstr "Ann").map toupper))
          (slot3 ((cstr "Ann").map toupper))).Sublist
        (chain_at r1 (slot1 ((cstr "Ann").map toupper)) (slot2 ((cstr "Ann").map toupper))
          (slot3 ((cstr "Ann").map toupper))) ∧
      (∀ m, find_names anna_ann m = .ok (0, anna_ann) → find_names r1 m = .ok (0, r1)) :=
  ⟨anna_ann_reachable, by decide, by decide, rfl,
    match insert_extends_one_chain anna_ann (cstr "Ann") anna_ann_reachable (by decide)
      (by decide) with
    | ⟨r1, h1, _, _, _, h5, h6⟩ => ⟨r1, h1, h5, h6⟩⟩

/-- C13, as the code has it: `find_names` hands back the same value for an
invalid name and for a valid name that is not in the index: in both cases it
returns 1 with the index as it was, and it returns 0 only for a name that is
stored; the validation failure shows only in the diagnostic that
`convert_to_upper` prints. -/
theorem find_names_same_result (r : Root) (bad good : Option CStr) (d : Diag) (key : CStr)
    (hr : NoFreed r) (hbad : convert_to_upper bad = .error d)
    (hgood : convert_to_upper good = .ok key)
    (habsent : key ∉ chain_at r (slot1 key) (slot2 key) (slot3 key)) :
    find_names r bad = .ok (1, r) ∧ find_names r good = .ok (1, r) ∧
    find_names r bad = find_names r good ∧
    (∀ m k, convert_to_upper m = .ok k → k ∈ chain_at r (slot1 k) (slot2 k) (slot3 k) →
      find_names r m = .ok (0, r)) := by
  have h1 := find_names_rejected r hbad
  have h2 := (find_names_ok hr hgood).2 habsent
  exact ⟨h1, h2, by rw [h1, h2], fun m k hk hm => (find_names_ok hr hk).1 hm⟩

/-- An instance of C13 as amended: Xx and Zephyr on the index that holds ANN and ANNA. -/
theorem find_names_same_result_witness :
    convert_to_upper (some (cstr "Xx")) = .error Diag.too_short ∧
    convert_to_upper (some (cstr "Zephyr")) = .ok (cstr "ZEPHYR") ∧
    find_names anna_ann (some (cstr "Xx")) = .ok (1, anna_ann) ∧
    find_names anna_ann (some (cstr "Zephyr")) = .ok (1, anna_ann) ∧
    find_names anna_ann (some (cstr "Xx")) = find_names anna_ann (some (cstr "Zephyr")) :=
  ⟨rfl, rfl,
    match find_names_same_result anna_ann (some (cstr "Xx")) (some (cstr "Zephyr"))
      Diag.too_short (cstr "ZEPHYR") anna_ann_reachable.noFreed rfl rfl (by decide) with
    | ⟨h1, h2, h3, _⟩ => ⟨h1, h2, h3⟩⟩

/-- C13 as stated fails: on the empty index `find_names` returns 1 with the
index unchanged both for Xx, which fails validation, and for Zephyr, which is
valid and absent, so the two results do not differ. -/
theorem find_names_not_distinguished :
    convert_to_upper (some (cstr "Xx")) = .error Diag.too_short ∧
    convert_to_upper (some (cstr "Zephyr")) = .ok (cstr "ZEPHYR") ∧
    find_names first_level_init (some (cstr "Xx")) = .ok (1, first_level_init) ∧
    find_names first_level_init (some (cstr "Zephyr")) = .ok (1, first_level_init) ∧
    ¬ (find_names first_level_init (some (cstr "Xx"))
        ≠ find_names first_level_init (some (cstr "Zephyr"))) :=
  ⟨rfl, rfl, rfl, rfl, fun h => h rfl⟩

/-- C14, as the code has it: an input that is absent or shorter than 3
characters gets the length diagnostic of `convert_to_upper` whatever it holds,
and an input of 3 or more characters with a non-alphabetic one gets the
character diagnostic; `add_name` and `find_names` hand back 1 and the unchanged
index for either kind, so the kind shows in the printed diagnostic only. -/
theorem error_kinds (input : Option CStr) :
    ((input = none ∨ ∃ s, input = some s ∧ s.length < 3) →
      convert_to_upper input = .error Diag.too_short) ∧
    ((∃ s, input = some s ∧ 3 ≤ s.length ∧ ∃ c ∈ s, isalpha c = false) →
      convert_to_upper input = .error Diag.invalid_character) ∧
    (∀ (r : Root) (d : Diag), convert_to_upper input = .error d →
      add_name r input = .ok (1, r) ∧ find_names r input = .ok (1, r)) := by
  refine ⟨?_, ?_, ?_⟩
  · rintro (rfl | ⟨s, rfl, hlt⟩)
    · rfl
    · simp [convert_to_upper, hlt]
  · rintro ⟨s, rfl, hlen, hbad⟩
    have : ¬ s.length < 3 := by omega
    simp [convert_to_upper, this, convert_loop_error hbad]
  · intro r d hd
    exact ⟨add_name_rejected r hd, find_names_rejected r hd⟩

/-- C14 as stated fails: Xx gets the length diagnostic and X1x the character
diagnostic, yet `add_name` hands back the same result for both, and so does
`find_names`. -/
theorem error_kinds_not_distinct :
    convert_to_upper (some (cstr "Xx")) = .error Diag.too_short ∧
    convert_to_upper (some (cstr "X1x")) = .error Diag.invalid_character ∧
    add_name first_level_init (some (cstr "Xx")) = .ok (1, first_level_init) ∧
    add_name first_level_init (some (cstr "X1x")) = .ok (1, first_level_init) ∧
    find_names first_level_init (some (cstr "Xx")) = .ok (1, first_level_init) ∧
    find_names first_level_init (some (cstr "X1x")) = .ok (1, first_level_init) ∧
    ¬ (add_name first_level_init (some (cstr "Xx"))
        ≠ add_name first_level_init (some (cstr "X1x"))) :=
  ⟨rfl, rfl, rfl, rfl, rfl, rfl, fun h => h rfl⟩

theorem free_loop_freed (l : List (Fin FIRST_LEVEL_SIZE)) (acc : List CStr) (r : Root)
    (hf : ∃ i ∈ l, r i = Ref.freed) (hl : ∀ i ∈ l, ∀ blocks, r i ≠ Ref.live blocks) :
    free_loop l (acc, r) = .error Fault.use_after_free := by
  induction l with
  | nil => obtain ⟨i, hi, -⟩ := hf; cases hi
  | cons a l ih =>
    cases hs : r a with
    | freed => simp only [free_loop, free_step, hs]
    | live g => exact absurd hs (hl a (List.mem_cons_self _ _) g)
    | null =>
      simp only [free_loop, free_step, hs]
      apply ih
      · obtain ⟨i, hi, hif⟩ := hf
        rcases List.mem_cons.mp hi with e | hm
        · subst e; rw [hs] at hif; cases hif
        · exact ⟨i, hm, hif⟩
      · exact fun i hi => hl i (List.mem_cons_of_mem _ hi)

theorem free_hash_blocks_init :
    free_hash_blocks first_level_init = .ok ([], first_level_init) := by
  obtain ⟨r1, h1, h2⟩ := free_hash_blocks_spec noFreed_init
  have e : r1 = first_level_init := by
    funext i; rw [h2 i]; rfl
  rw [h1, enumerate_init, e]

theorem live_of_ne_init {r : Root} (hr : NoFreed r) (hne : r ≠ first_level_init) :
    ∃ i blocks, r i = Ref.live blocks := by
  by_contra hcon
  push_neg at hcon
  apply hne
  funext i
  cases hs : r i with
  | null => rfl
  | freed => exact absurd hs (hr i)
  | live g => exact absurd hs (hcon i g)

/-- C11, as the code has it: `free_hash_blocks` on the empty index releases
nothing and leaves it empty, and on a reachable state it returns after one
call; a second call in a row repeats the first only when the index was empty:
if the first call released a group, the second reads that released group
again instead of finding the slot absent. -/
theorem teardown_once (r : Root) (hr : Reachable r) :
    free_hash_blocks first_level_init = .ok ([], first_level_init) ∧
    ∃ r1, free_hash_blocks r = .ok (enumerate r, r1) ∧
      (r = first_level_init → free_hash_blocks r1 = .ok ([], r1) ∧ r1 = r) ∧
      (r ≠ first_level_init → free_hash_blocks r1 = .error Fault.use_after_free) := by
  refine ⟨free_hash_blocks_init, ?_⟩
  obtain ⟨r1, h1, h2⟩ := free_hash_blocks_spec hr.noFreed
  refine ⟨r1, h1, ?_, ?_⟩
  · intro e
    subst e
    have e1 : r1 = first_level_init := by
      funext i; rw [h2 i]; rfl
    rw [e1]
    exact ⟨free_hash_blocks_init, rfl⟩
  · intro hne
    obtain ⟨i, g, hg⟩ := live_of_ne_init hr.noFreed hne
    unfold free_hash_blocks
    apply free_loop_freed
    · exact ⟨i, List.mem_finRange i, by rw [h2 i, hg]; rfl⟩
    · intro i1 _ g1
      rw [h2 i1]
      cases hs : r i1 with
      | null => intro e; cases e
      | freed => intro e; cases e
      | live g2 => intro e; cases e

/-- An instance of C11 as amended: two teardowns of the index that holds ANN and ANNA. -/
theorem teardown_once_witness :
    Reachable anna_ann ∧ anna_ann ≠ first_level_init ∧
    ∃ r1, free_hash_blocks anna_ann = .ok (enumerate anna_ann, r1) ∧
      free_hash_blocks r1 = .error Fault.use_after_free :=
  have hne : anna_ann ≠ first_level_init := fun h =>
    absurd (congrArg Ref.is_null (congrFun h 0)) (by decide)
  ⟨anna_ann_reachable, hne,
    match (teardown_once anna_ann anna_ann_reachable).2 with
    | ⟨r1, h1, _, h3⟩ => ⟨r1, h1, h3 hne⟩⟩

/-- C11 as stated fails: after `add_name("ANN")` on the empty index the first
`free_hash_blocks` returns, and the second one does not yield the same state:
it reads the group under `[A]` that the first call released. -/
theorem teardown_not_idempotent :
    ∃ r rel r1, add_names first_level_init [some (cstr "ANN")] = .ok r ∧
      free_hash_blocks r = .ok (rel, r1) ∧
      free_hash_blocks r1 = .error Fault.use_after_free ∧
      ¬ (∃ rel2, free_hash_blocks r1 = .ok (rel2, r1)) := by
  have hno : ∀ r1 : Root, free_hash_blocks r1 = .error Fault.use_after_free →
      ¬ (∃ rel2, free_hash_blocks r1 = .ok (rel2, r1)) := by
    rintro r1 h ⟨rel2, h2⟩
    cases h.symm.trans h2
  exact ⟨_, _, _, rfl, rfl, rfl, hno _ rfl⟩

theorem insert_after_node_names (c : List Node) (n : Node) :
    (insert_after_node c n).map Node.name = insert_after (c.map Node.name) n.name := by
  induction c with
  | nil => rfl
  | cons x xs ih =>
    simp only [insert_after_node, List.map_cons, insert_after]
    split
    · simp [ih]
    · rfl

theorem insert_sorted_node_names (c : List Node) (n : Node) :
    (insert_sorted_node c n).map Node.name = insert_sorted (c.map Node.name) n.name := by
  cases c with
  | nil => rfl
  | cons x xs =>
    simp only [insert_sorted_node, List.map_cons, insert_sorted]
    split
    · rfl
    · simp [insert_after_node_names]

theorem strcmp_lt_of_le_of_lt {a b c : CStr} (h1 : strcmp a b ≤ 0) (h2 : strcmp b c < 0) :
    strcmp a c < 0 := by
  have hle : strcmp a c ≤ 0 := strcmp_le_trans h1 (Int.le_of_lt h2)
  have hne : strcmp a c ≠ 0 := by
    intro e
    have := (strcmp_eq_zero_iff a c).mp e
    subst this
    rw [strcmp_swap a b] at h2
    omega
  omega

/-- In a sorted chain whose head is not before `key`, no node is before `key`. -/
theorem none_before {x : Node} {xs : List Node} {key : CStr} (hs : SortedNodes (x :: xs))
    (hx : ¬ strcmp x.name key < 0) : ∀ y ∈ x :: xs, before key y = false := by
  intro y hy
  simp only [before, decide_eq_false_iff_not]
  rcases List.mem_cons.mp hy with rfl | hm
  · exact hx
  · intro hlt
    exact hx (strcmp_lt_of_le_of_lt (List.rel_of_pairwise_cons hs hm) hlt)

theorem filter_none_before {c : List Node} {key : CStr}
    (h : ∀ y ∈ c, before key y = false) :
    c.filter (before key) = [] ∧ c.filter (fun y => !before key y) = c := by
  constructor
  · exact List.filter_eq_nil_iff.mpr (fun y hy => by simp [h y hy])
  · exact List.filter_eq_self.mpr (fun y hy => by simp [h y hy])

theorem insert_after_node_sorted (c : List Node) (n : Node) (hs : SortedNodes c) :
    insert_after_node c n =
      c.filter (before n.name) ++ n :: c.filter (fun y => !before n.name y) := by
  induction c with
  | nil => rfl
  | cons x xs ih =>
    have hxs : SortedNodes xs := (List.pairwise_cons.mp hs).2
    unfold insert_after_node
    split
    · next hlt =>
      have hb : before n.name x = true := by simp [before, hlt]
      simp [List.filter_cons, hb, ih hxs]
    · next hge =>
      obtain ⟨e1, e2⟩ := filter_none_before (none_before hs hge)
      rw [e1, e2]; rfl

theorem sorted_split {c : List Node} (key : CStr) (hs : SortedNodes c) :
    c.filter (before key) ++ c.filter (fun y => !before key y) = c := by
  induction c with
  | nil => rfl
  | cons x xs ih =>
    have hxs : SortedNodes xs := (List.pairwise_cons.mp hs).2
    by_cases hlt : strcmp x.name key < 0
    · have hb : before key x = true := by simp [before, hlt]
      simp [List.filter_cons, hb, ih hxs]
    · obtain ⟨e1, e2⟩ := filter_none_before (none_before hs hlt)
      rw [e1, e2]; rfl

/-- The new node goes right behind a head of equal name. -/
theorem insert_sorted_node_equal_head {h n : Node} {rest : List Node}
    (hs : SortedNodes (h :: rest)) (he : strcmp h.name n.name = 0) :
    insert_sorted_node (h :: rest) n = h :: n :: rest := by
  have hng : ¬ strcmp h.name n.name > 0 := by omega
  simp only [insert_sorted_node, hng, if_false]
  congr 1
  cases rest with
  | nil => rfl
  | cons y ys =>
    have hy : ¬ strcmp y.name n.name < 0 := by
      intro hlt
      have := strcmp_lt_of_le_of_lt (List.rel_of_pairwise_cons hs (List.mem_cons_self _ _)) hlt
      omega
    simp only [insert_after_node, hy, if_false]

/-- The new node goes in front of the first node that is not before it, when
the head has another name. -/
theorem insert_sorted_node_other_head {c : List Node} {n : Node} (hs : SortedNodes c)
    (hne : ∀ h rest, c = h :: rest → strcmp h.name n.name ≠ 0) :
    insert_sorted_node c n =
      c.filter (before n.name) ++ n :: c.filter (fun y => !before n.name y) := by
  cases c with
  | nil => rfl
  | cons h rest =>
    have hrest : SortedNodes rest := (List.pairwise_cons.mp hs).2
    have h0 := hne h rest rfl
    by_cases hgt : strcmp h.name n.name > 0
    · have hnl : ¬ strcmp h.name n.name < 0 := by omega
      obtain ⟨e1, e2⟩ := filter_none_before (none_before hs hnl)
      simp only [insert_sorted_node, hgt, if_true]
      rw [e1, e2]; rfl
    · have hlt : strcmp h.name n.name < 0 := by omega
      have hb : before n.name h = true := by simp [before, hlt]
      simp only [insert_sorted_node, hgt, if_false]
      rw [insert_after_node_sorted rest n hrest]
      simp [List.filter_cons, hb]

theorem sortedNodes_iff (c : List Node) :
    SortedNodes c ↔ List.Chain' name_le (c.map Node.name) := by
  haveI : IsTrans CStr name_le := ⟨fun _ _ _ => name_le_trans⟩
  rw [List.chain'_iff_pairwise, List.pairwise_map]
  rfl

theorem insert_sorted_node_sorted {c : List Node} (n : Node) (hs : SortedNodes c) :
    SortedNodes (insert_sorted_node c n) := by
  rw [sortedNodes_iff, insert_sorted_node_names]
  exact insert_sorted_chain _ _ ((sortedNodes_iff c).mp hs)

theorem filter_names (c : List Node) (key : CStr) :
    (c.map Node.name).filter (name_before key) = (c.filter (before key)).map Node.name ∧
    (c.map Node.name).filter (fun y => !name_before key y)
      = (c.filter (fun y => !before key y)).map Node.name := by
  constructor <;> (rw [List.filter_map]; rfl)

/-- The names after `insert_sorted`, for a sorted chain. -/
theorem insert_sorted_node_keys {c : List Node} (n : Node) (hs : SortedNodes c) :
    (insert_sorted_node c n).map Node.name =
      (c.map Node.name).filter (name_before n.name) ++
        n.name :: (c.map Node.name).filter (fun y => !name_before n.name y) := by
  rw [(filter_names c n.name).1, (filter_names c n.name).2]
  by_cases hhead : ∀ h rest, c = h :: rest → strcmp h.name n.name ≠ 0
  · rw [insert_sorted_node_other_head hs hhead]
    simp
  · push_neg at hhead
    obtain ⟨h, rest, rfl, he⟩ := hhead
    have hnl : ¬ strcmp h.name n.name < 0 := by omega
    obtain ⟨e1, e2⟩ := filter_none_before (none_before hs hnl)
    rw [insert_sorted_node_equal_head hs he, e1, e2]
    have : h.name = n.name := (strcmp_eq_zero_iff _ _).mp he
    simp [this]

/-- C15, as the code has it: for every chain sorted in non-decreasing key order
(the empty one included) and every new record with key `k`, the keys after
`insert_sorted` are the old keys before `k`, then `k`, then the old keys not
before `k`, each part in its old order, and the chain is sorted again; the new
record is linked immediately before the first old record whose key is not
before `k`, except when the head has the key `k`: then it is linked right
after the head. -/
theorem insert_sorted_ordered (c : List Node) (n : Node) (hs : SortedNodes c) :
    (insert_sorted_node c n).map Node.name =
      (c.map Node.name).filter (name_before n.name) ++
        n.name :: (c.map Node.name).filter (fun y => !name_before n.name y) ∧
    insert_sorted (c.map Node.name) n.name =
      (c.map Node.name).filter (name_before n.name) ++
        n.name :: (c.map Node.name).filter (fun y => !name_before n.name y) ∧
    SortedNodes (insert_sorted_node c n) ∧
    List.Chain' (fun a b => strcmp a b ≤ 0) (insert_sorted (c.map Node.name) n.name) ∧
    ((∀ h rest, c = h :: rest → strcmp h.name n.name ≠ 0) →
      insert_sorted_node c n =
        c.filter (before n.name) ++ n :: c.filter (fun y => !before n.name y)) ∧
    (∀ h rest, c = h :: rest → strcmp h.name n.name = 0 →
      insert_sorted_node c n = h :: n :: rest) := by
  have hk := insert_sorted_node_keys n hs
  refine ⟨hk, ?_, insert_sorted_node_sorted n hs, ?_, ?_, ?_⟩
  · rw [← insert_sorted_node_names]; exact hk
  · exact insert_sorted_chain _ _ ((sortedNodes_iff c).mp hs)
  · exact fun hne => insert_sorted_node_other_head hs hne
  · intro h rest e he
    subst e
    exact insert_sorted_node_equal_head hs he

/-- An instance of C15 as amended: BOB into the chain ANN, BOB, CAT. -/
theorem insert_sorted_ordered_witness :
    SortedNodes [⟨cstr "ANN", 1⟩, ⟨cstr "BOB", 2⟩, ⟨cstr "CAT", 3⟩] ∧
    insert_sorted_node [⟨cstr "ANN", 1⟩, ⟨cstr "BOB", 2⟩, ⟨cstr "CAT", 3⟩] ⟨cstr "BOB", 4⟩
      = [⟨cstr "ANN", 1⟩, ⟨cstr "BOB", 4⟩, ⟨cstr "BOB", 2⟩, ⟨cstr "CAT", 3⟩] ∧
    SortedNodes
      (insert_sorted_node [⟨cstr "ANN", 1⟩, ⟨cstr "BOB", 2⟩, ⟨cstr "CAT", 3⟩] ⟨cstr "BOB", 4⟩) :=
  have hs : SortedNodes [⟨cstr "ANN", 1⟩, ⟨cstr "BOB", 2⟩, ⟨cstr "CAT", 3⟩] := by
    unfold SortedNodes; decide
  ⟨hs, by decide,
    (insert_sorted_ordered [⟨cstr "ANN", 1⟩, ⟨cstr "BOB", 2⟩, ⟨cstr "CAT", 3⟩]
      ⟨cstr "BOB", 4⟩ hs).2.2.1⟩

/-- C15 as stated fails: the chain that holds the one record BOB at address 1
is sorted, and `insert_sorted` links a new record BOB at address 2 behind it,
not before it, although the key of the old record is not less than BOB. -/
theorem insert_sorted_not_before_equal_head :
    SortedNodes [⟨cstr "BOB", 1⟩] ∧
    insert_sorted_node [⟨cstr "BOB", 1⟩] ⟨cstr "BOB", 2⟩
      = [⟨cstr "BOB", 1⟩, ⟨cstr "BOB", 2⟩] ∧
    [⟨cstr "BOB", 1⟩].filter (before (cstr "BOB")) ++
        (⟨cstr "BOB", 2⟩ : Node) :: [⟨cstr "BOB", 1⟩].filter (fun y => !before (cstr "BOB") y)
      = [⟨cstr "BOB", 2⟩, ⟨cstr "BOB", 1⟩] ∧
    insert_sorted_node [⟨cstr "BOB", 1⟩] ⟨cstr "BOB", 2⟩ ≠
      [⟨cstr "BOB", 1⟩].filter (before (cstr "BOB")) ++
        (⟨cstr "BOB", 2⟩ : Node) ::
          [⟨cstr "BOB", 1⟩].filter (fun y => !before (cstr "BOB") y) :=
  ⟨by unfold SortedNodes; decide, by decide, by decide, by decide⟩

/-- C16, as the code has it: for every sorted chain that holds records with the
key of the new record, `insert_sorted` links the new record right after the
head when the head has that key, at position 1, and otherwise before all old
records with that key, at the position that is the number of old records with
a smaller key; so among the records ahead of the new one only the head can
have its key, and every other duplicate comes after the new record. -/
theorem equal_key_position (c : List Node) (n : Node) (hs : SortedNodes c)
    (heq : ∃ x ∈ c, x.name = n.name) :
    ∃ l1 l2, insert_sorted_node c n = l1 ++ n :: l2 ∧ c = l1 ++ l2 ∧
      l1.length = (if c.head?.map Node.name = some n.name then 1
        else c.countP (before n.name)) ∧
      (∀ x ∈ l1, x.name = n.name → l1 = [x]) ∧
      (∀ x ∈ l2, strcmp n.name x.name ≤ 0) := by
  obtain ⟨x0, hx0, hx0n⟩ := heq
  cases c with
  | nil => cases hx0
  | cons h rest =>
    have hrestge : ∀ key : CStr, ∀ y ∈ (h :: rest).filter (fun y => !before key y),
        strcmp key y.name ≤ 0 := by
      intro key y hy
      have hy2 := (List.mem_filter.mp hy).2
      simp only [before, Bool.not_eq_true', decide_eq_false_iff_not] at hy2
      rw [strcmp_swap y.name key]
      omega
    by_cases he : strcmp h.name n.name = 0
    · have hname : h.name = n.name := (strcmp_eq_zero_iff _ _).mp he
      refine ⟨[h], rest, insert_sorted_node_equal_head hs he, rfl, ?_, ?_, ?_⟩
      · simp [hname]
      · intro x hx _
        rw [List.mem_singleton.mp hx]
      · intro x hx
        rw [← hname]
        exact List.rel_of_pairwise_cons hs hx
    · have hname : ¬ h.name = n.name := fun e => he ((strcmp_eq_zero_iff _ _).mpr e)
      refine ⟨(h :: rest).filter (before n.name),
        (h :: rest).filter (fun y => !before n.name y),
        insert_sorted_node_other_head hs (fun h1 rest1 e => by
          injection e with e1 e2; subst e1; exact he),
        (sorted_split n.name hs).symm, ?_, ?_, hrestge n.name⟩
      · simp only [List.head?_cons, Option.map_some', Option.some.injEq, hname, if_false]
        exact (List.countP_eq_length_filter _ _).symm
      · intro x hx hxn
        exfalso
        have hb := (List.mem_filter.mp hx).2
        simp only [before, decide_eq_true_eq] at hb
        rw [hxn, (strcmp_eq_zero_iff n.name n.name).mpr rfl] at hb
        omega

/-- An instance of C16 as amended: BOB into the chain ANN, BOB, BOB. -/
theorem equal_key_position_witness :
    SortedNodes [⟨cstr "ANN", 1⟩, ⟨cstr "BOB", 2⟩, ⟨cstr "BOB", 3⟩] ∧
    ∃ l1 l2, insert_sorted_node [⟨cstr "ANN", 1⟩, ⟨cstr "BOB", 2⟩, ⟨cstr "BOB", 3⟩]
        ⟨cstr "BOB", 4⟩ = l1 ++ (⟨cstr "BOB", 4⟩ : Node) :: l2 ∧
      [⟨cstr "ANN", 1⟩, ⟨cstr "BOB", 2⟩, ⟨cstr "BOB", 3⟩] = l1 ++ l2 ∧
      l1.length = 1 :=
  have hs : SortedNodes [⟨cstr "ANN", 1⟩, ⟨cstr "BOB", 2⟩, ⟨cstr "BOB", 3⟩] := by
    unfold SortedNodes; decide
  ⟨hs,
    match equal_key_position [⟨cstr "ANN", 1⟩, ⟨cstr "BOB", 2⟩, ⟨cstr "BOB", 3⟩]
      ⟨cstr "BOB", 4⟩ hs ⟨⟨cstr "BOB", 2⟩, by decide, rfl⟩ with
    | ⟨l1, l2, h1, h2, h3, _⟩ => ⟨l1, l2, h1, h2, h3.trans (by decide)⟩⟩

/-- C16 as stated fails: in the sorted chain ANN, BOB, BOB (addresses 1, 2, 3)
a new record BOB at address 4 is linked at position 1, in front of both old
records BOB, while three old records have a key not greater than BOB. -/
theorem equal_key_not_fifo :
    SortedNodes [⟨cstr "ANN", 1⟩, ⟨cstr "BOB", 2⟩, ⟨cstr "BOB", 3⟩] ∧
    insert_sorted_node [⟨cstr "ANN", 1⟩, ⟨cstr "BOB", 2⟩, ⟨cstr "BOB", 3⟩] ⟨cstr "BOB", 4⟩
      = [⟨cstr "ANN", 1⟩, ⟨cstr "BOB", 4⟩, ⟨cstr "BOB", 2⟩, ⟨cstr "BOB", 3⟩] ∧
    List.indexOf (⟨cstr "BOB", 4⟩ : Node)
      (insert_sorted_node [⟨cstr "ANN", 1⟩, ⟨cstr "BOB", 2⟩, ⟨cstr "BOB", 3⟩]
        ⟨cstr "BOB", 4⟩) = 1 ∧
    List.countP (fun x : Node => decide (strcmp x.name (cstr "BOB") ≤ 0))
      [⟨cstr "ANN", 1⟩, ⟨cstr "BOB", 2⟩, ⟨cstr "BOB", 3⟩] = 3 :=
  ⟨by unfold SortedNodes; decide, by decide, by decide, by decide⟩

theorem insert_sorted_comm {c : Chain} (a b : CStr) (hc : List.Chain' name_le c) :
    insert_sorted (insert_sorted c a) b = insert_sorted (insert_sorted c b) a := by
  haveI : IsTrans CStr name_le := ⟨fun _ _ _ => name_le_trans⟩
  haveI : IsAntisymm CStr name_le := ⟨fun _ _ => name_le_antisymm⟩
  have s1 := List.chain'_iff_pairwise.mp
    (insert_sorted_chain _ b (insert_sorted_chain c a hc))
  have s2 := List.chain'_iff_pairwise.mp
    (insert_sorted_chain _ a (insert_sorted_chain c b hc))
  have p1 : (insert_sorted (insert_sorted c a) b).Perm (b :: a :: c) :=
    (insert_sorted_perm _ b).trans (List.Perm.cons b (insert_sorted_perm c a))
  have p2 : (insert_sorted (insert_sorted c b) a).Perm (a :: b :: c) :=
    (insert_sorted_perm _ a).trans (List.Perm.cons a (insert_sorted_perm c b))
  exact List.eq_of_perm_of_sorted (p1.trans ((List.Perm.swap a b c).trans p2.symm)) s1 s2

theorem put_null_iff (r : Root) (i i1 : Fin FIRST_LEVEL_SIZE) (j : Fin SECOND_LEVEL_SIZE)
    (k : Fin THIRD_LEVEL_SIZE) (key : CStr) :
    put r i j k key i1 = Ref.null ↔ i1 ≠ i ∧ r i1 = Ref.null := by
  by_cases h : i1 = i
  · subst h
    obtain ⟨g1, b1, hg1, -⟩ := put_self r i1 j k key
    rw [hg1]
    constructor
    · intro e; cases e
    · intro e; exact absurd rfl e.1
  · rw [put_other r j k key h]
    exact ⟨fun e => ⟨h, e⟩, fun e => e.2⟩

theorem has_block_put (r : Root) (i i1 : Fin FIRST_LEVEL_SIZE) (j j1 : Fin SECOND_LEVEL_SIZE)
    (k : Fin THIRD_LEVEL_SIZE) (key : CStr) :
    has_block (put r i j k key) i1 j1 ↔ (i1 = i ∧ j1 = j) ∨ has_block r i1 j1 := by
  by_cases h : i1 = i
  · subst h
    obtain ⟨g1, b1, hg1, hb1, -, hj1, -⟩ := put_self r i1 j k key
    by_cases hj : j1 = j
    · subst hj
      exact ⟨fun _ => Or.inl ⟨rfl, rfl⟩, fun _ => ⟨g1, b1, hg1, hb1⟩⟩
    · constructor
      · rintro ⟨g, b, hg, hb⟩
        right
        rw [hg1] at hg
        injection hg with hg
        subst hg
        rw [hj1 j1 hj] at hb
        exact ⟨_, b, blocks_of_some hb, hb⟩
      · rintro (⟨-, e⟩ | ⟨g, b, hg, hb⟩)
        · exact absurd e hj
        · refine ⟨g1, b, hg1, ?_⟩
          rw [hj1 j1 hj, hg]
          exact hb
  · unfold has_block
    rw [put_other r j k key h]
    constructor
    · intro hh; exact Or.inr hh
    · rintro (⟨e, -⟩ | hh)
      · exact absurd e h
      · exact hh

theorem chain_at_of_block {r : Root} {i : Fin FIRST_LEVEL_SIZE} {j : Fin SECOND_LEVEL_SIZE}
    {g : HashBlocks} {b : HashBlock} (hg : r i = Ref.live g) (hb : g.second_level j = some b)
    (k : Fin THIRD_LEVEL_SIZE) : b.third_level k = chain_at r i j k := by
  simp only [chain_at, hg, hb]

/-- Two arrays with no released slot are equal when they have the same
first-level slots present, the same blocks present and the same chains. -/
theorem root_ext {r1 r2 : Root} (h1 : NoFreed r1) (h2 : NoFreed r2)
    (hnull : ∀ i, r1 i = Ref.null ↔ r2 i = Ref.null)
    (hblock : ∀ i j, has_block r1 i j ↔ has_block r2 i j)
    (hchain : ∀ i j k, chain_at r1 i j k = chain_at r2 i j k) : r1 = r2 := by
  funext i
  cases hs1 : r1 i with
  | freed => exact absurd hs1 (h1 i)
  | null => exact ((hnull i).mp hs1).symm
  | live g1 =>
    cases hs2 : r2 i with
    | freed => exact absurd hs2 (h2 i)
    | null => rw [(hnull i).mpr hs2] at hs1; cases hs1
    | live g2 =>
      congr 1
      cases g1 with
      | mk f1 =>
        cases g2 with
        | mk f2 =>
          congr 1
          funext j
          cases hb1 : f1 j with
          | none =>
            cases hb2 : f2 j with
            | none => rfl
            | some b2 =>
              obtain ⟨g, b, hg, hb⟩ := (hblock i j).mpr ⟨_, b2, hs2, hb2⟩
              rw [hs1] at hg
              injection hg with hg
              subst hg
              have hb3 : f1 j = some b := hb
              rw [hb1] at hb3
              cases hb3
          | some b1 =>
            cases hb2 : f2 j with
            | none =>
              obtain ⟨g, b, hg, hb⟩ := (hblock i j).mp ⟨_, b1, hs1, hb1⟩
              rw [hs2] at hg
              injection hg with hg
              subst hg
              have hb3 : f2 j = some b := hb
              rw [hb2] at hb3
              cases hb3
            | some b2 =>
              congr 1
              cases b1 with
              | mk t1 =>
                cases b2 with
                | mk t2 =>
                  congr 1
                  funext k
                  have e1 := chain_at_of_block hs1 hb1 k
                  have e2 := chain_at_of_block hs2 hb2 k
                  simp only at e1 e2
                  rw [e1, e2, hchain i j k]

/-- Linking two keys gives the same array in either order, when the chains are sorted. -/
theorem put_comm {r : Root} (hr : NoFreed r)
    (hs : ∀ i j k, List.Chain' name_le (chain_at r i j k))
    (i i1 : Fin FIRST_LEVEL_SIZE) (j j1 : Fin SECOND_LEVEL_SIZE) (k k1 : Fin THIRD_LEVEL_SIZE)
    (a b : CStr) :
    put (put r i j k a) i1 j1 k1 b = put (put r i1 j1 k1 b) i j k a := by
  apply root_ext (noFreed_put (noFreed_put hr _ _ _ _) _ _ _ _)
    (noFreed_put (noFreed_put hr _ _ _ _) _ _ _ _)
  · intro x
    simp only [put_null_iff]
    tauto
  · intro x y
    simp only [has_block_put]
    tauto
  · intro x y z
    simp only [chain_at_put]
    by_cases h1 : x = i ∧ y = j ∧ z = k
    · by_cases h2 : x = i1 ∧ y = j1 ∧ z = k1
      · obtain ⟨rfl, rfl, rfl⟩ := h1
        obtain ⟨rfl, rfl, rfl⟩ := h2
        simp only [and_self, if_true]
        exact insert_sorted_comm a b (hs _ _ _)
      · obtain ⟨rfl, rfl, rfl⟩ := h1
        have h3 : ¬ (i1 = x ∧ j1 = y ∧ k1 = z) := fun h => h2 ⟨h.1.symm, h.2.1.symm, h.2.2.symm⟩
        simp [h2, h3]
    · by_cases h2 : x = i1 ∧ y = j1 ∧ z = k1
      · obtain ⟨rfl, rfl, rfl⟩ := h2
        have h3 : ¬ (i = x ∧ j = y ∧ k = z) := fun h => h1 ⟨h.1.symm, h.2.1.symm, h.2.2.symm⟩
        simp [h1, h3]
      · simp [h1, h2]

/-- A name `add_name` accepts: at least 3 bytes, all letters. -/
theorem add_name_valid {s : Root} (hs : Reachable s) {n : CStr}
    (hv : 3 ≤ n.length ∧ ∀ c ∈ n, isalpha c = true) :
    add_name s (some n) = .ok (0, put s (slot1 (n.map toupper)) (slot2 (n.map toupper))
      (slot3 (n.map toupper)) (n.map toupper)) ∧
    Reachable (put s (slot1 (n.map toupper)) (slot2 (n.map toupper))
      (slot3 (n.map toupper)) (n.map toupper)) := by
  have h := add_name_ok hs.noFreed (valid_convert hv.1 hv.2)
  exact ⟨h, Reachable.step hs h⟩

theorem add_names_perm {l1 l2 : List CStr} (hp : l1.Perm l2) :
    (∀ n ∈ l1, 3 ≤ n.length ∧ ∀ c ∈ n, isalpha c = true) →
    ∀ s : Root, Reachable s → add_names s (l1.map some) = add_names s (l2.map some) := by
  induction hp with
  | nil => intro _ s _; rfl
  | @cons x l1 l2 _ ih =>
    intro hv s hs
    obtain ⟨h1, h2⟩ := add_name_valid hs (hv x (List.mem_cons_self _ _))
    simp only [List.map_cons, add_names, h1]
    exact ih (fun n hn => hv n (List.mem_cons_of_mem _ hn)) _ h2
  | swap x y l =>
    intro hv s hs
    have hy := hv y (List.mem_cons_self _ _)
    have hx := hv x (List.mem_cons_of_mem _ (List.mem_cons_self _ _))
    obtain ⟨y1, y2⟩ := add_name_valid hs hy
    obtain ⟨x1, x2⟩ := add_name_valid hs hx
    obtain ⟨yx1, -⟩ := add_name_valid y2 hx
    obtain ⟨xy1, -⟩ := add_name_valid x2 hy
    simp only [List.map_cons, add_names, y1, x1, yx1, xy1]
    rw [put_comm hs.noFreed (fun i j k => chain_at_sorted hs i j k)]
  | @trans l1 l2 l3 h12 _ ih1 ih2 =>
    intro hv s hs
    rw [ih1 hv s hs]
    exact ih2 (fun n hn => hv n (h12.mem_iff.mpr hn)) s hs

/-- C21: in every reachable state and for all valid names `a` and `b`,
`add_name(a)` followed by `add_name(b)` gives the same index, with the same
slots present and the same keys in every chain, as `add_name(b)` followed by
`add_name(a)`; so two lists of valid names that are permutations of each other
build the same index from any reachable state, with the same enumeration. -/
theorem insertion_order_irrelevant (r : Root) (a b : CStr) (hr : Reachable r)
    (ha : 3 ≤ a.length ∧ ∀ c ∈ a, isalpha c = true)
    (hb : 3 ≤ b.length ∧ ∀ c ∈ b, isalpha c = true) :
    (∃ ra rb rab, add_name r (some a) = .ok (0, ra) ∧ add_name ra (some b) = .ok (0, rab) ∧
      add_name r (some b) = .ok (0, rb) ∧ add_name rb (some a) = .ok (0, rab)) ∧
    (∀ (s : Root) (l1 l2 : List CStr), Reachable s → l1.Perm l2 →
      (∀ n ∈ l1, 3 ≤ n.length ∧ ∀ c ∈ n, isalpha c = true) →
      ∃ s1 out, add_names s (l1.map some) = .ok s1 ∧ add_names s (l2.map some) = .ok s1 ∧
        print_hash_blocks s1 = .ok out ∧ names_of out = enumerate s1) := by
  constructor
  · obtain ⟨a1, a2⟩ := add_name_valid hr ha
    obtain ⟨b1, b2⟩ := add_name_valid hr hb
    obtain ⟨ab1, -⟩ := add_name_valid a2 hb
    obtain ⟨ba1, -⟩ := add_name_valid b2 ha
    refine ⟨_, _, _, a1, ab1, b1, ?_⟩
    rw [ba1, put_comm hr.noFreed (fun i j k => chain_at_sorted hr i j k)]
  · intro s l1 l2 hs hp hv
    obtain ⟨s1, h1, hn1⟩ := add_names_total hs.noFreed (l1.map some)
    obtain ⟨out, ho, hnames⟩ := print_hash_blocks_spec hn1
    exact ⟨s1, out, h1, by rw [← add_names_perm hp hv s hs]; exact h1, ho, hnames⟩

/-- An instance of C21: Boz and Ann into the index that holds ANN and ANNA. -/
theorem insertion_order_irrelevant_witness :
    Reachable anna_ann ∧
    (3 ≤ (cstr "Boz").length ∧ ∀ c ∈ cstr "Boz", isalpha c = true) ∧
    (3 ≤ (cstr "Ann").length ∧ ∀ c ∈ cstr "Ann", isalpha c = true) ∧
    ∃ ra rb rab, add_name anna_ann (some (cstr "Boz")) = .ok (0, ra) ∧
      add_name ra (some (cstr "Ann")) = .ok (0, rab) ∧
      add_name anna_ann (some (cstr "Ann")) = .ok (0, rb) ∧
      add_name rb (some (cstr "Boz")) = .ok (0, rab) :=
  ⟨anna_ann_reachable, ⟨by decide, by decide⟩, ⟨by decide, by decide⟩,
    (insertion_order_irrelevant anna_ann (cstr "Boz") (cstr "Ann") anna_ann_reachable
      ⟨by decide, by decide⟩ ⟨by decide, by decide⟩).1⟩

/-- C22 fails on the code: `add_name` and `find_name` take the second-level
index from the second character of the key, not from its first vowel. BRAD
has the first vowel A, of class 0, and is stored and looked up under class 6,
the default one, because its second character is R; the block of vowel A under
`[B]` stays absent. -/
theorem second_index_is_second_character :
    convert_to_upper (some (cstr "BRAD")) = .ok (cstr "BRAD") ∧
    documented_second_index (cstr "BRAD") = 0 ∧
    vowel_to_index ((cstr "BRAD").getD 1 0) = 6 ∧
    add_name first_level_init (some (cstr "BRAD"))
      = .ok (0, put first_level_init 1 6 0 (cstr "BRAD")) ∧
    chain_at (put first_level_init 1 6 0 (cstr "BRAD")) 1 6 0 = [cstr "BRAD"] ∧
    (∀ k, chain_at (put first_level_init 1 6 0 (cstr "BRAD")) 1 0 k = []) ∧
    ¬ has_block (put first_level_init 1 6 0 (cstr "BRAD")) 1 0 ∧
    print_hash_blocks (put first_level_init 1 6 0 (cstr "BRAD"))
      = .ok [Line.first 1, Line.second 6, Line.third 0, Line.name (cstr "BRAD")] ∧
    (∀ (r : Root) (input : Option CStr) (key : CStr), NoFreed r →
      convert_to_upper input = .ok key →
      (slot2 key).val = vowel_to_index (key.getD 1 0) ∧
      add_name r input = .ok (0, put r (slot1 key) (slot2 key) (slot3 key) key) ∧
      find_name r key
        = .ok (find_name_loop (chain_at r (slot1 key) (slot2 key) (slot3 key)) key)) := by
  refine ⟨rfl, by decide, by decide, ?_, rfl, ?_, ?_, rfl, ?_⟩
  · have h : add_name first_level_init (some (cstr "BRAD"))
        = .ok (0, put first_level_init (slot1 (cstr "BRAD")) (slot2 (cstr "BRAD"))
            (slot3 (cstr "BRAD")) (cstr "BRAD")) :=
      add_name_ok noFreed_init rfl
    have e1 : slot1 (cstr "BRAD") = 1 := by decide
    have e2 : slot2 (cstr "BRAD") = 6 := by decide
    have e3 : slot3 (cstr "BRAD") = 0 := by decide
    rw [e1, e2, e3] at h
    exact h
  · intro k
    rw [chain_at_put, if_neg (fun h => absurd h.2.1 (by decide))]
    rfl
  · rw [has_block_put]
    rintro (⟨-, h⟩ | ⟨g, b, hg, -⟩)
    · exact absurd h (by decide)
    · cases hg
  · intro r input key hr hc
    have hk := convert_isKey hc
    exact ⟨(slot_vals hk).2.1, add_name_ok hr hc, find_name_key hr hk⟩

end HB
